import Mathlib

/-!
Verification development for the hue-cache repository.

Shallow embedding of the cache engine (`backends/memory.go`), the entry
value type (`entry.go`), the persistence subsystem (file backend), and the
sync engine (`sync.go`).

Modelling conventions:
* Go strings are `List Char`, written `Str`.
* Go `time.Time` is a `Nat` tick count; the Go zero time is `0` for the
  fields where the code tests `IsZero` (`ExpiresAt` is `Option Nat` with
  `none` for the zero time, since `NewEntry` only ever sets it to a real
  instant or leaves it zero).
* Go `time.Duration` and `int64` are `Int`.
* Byte slices are `List Nat`; a Go `nil` slice is `none` in `Option (List Nat)`
  where the code distinguishes nil from empty.
* Each operation takes the current time `now : Nat` explicitly in place of
  calls to `time.Now()`.
* `sync.Map` is an association list iterated in list order; `Range`
  iteration order in Go is unspecified, and no claim below depends on it.
-/

namespace HueCache

/-- Go strings, modelled as character lists. -/
abbrev Str := List Char

/-- `strings.HasPrefix` (membership of `pre` as a prefix of `s`). -/
def strStartsWith : Str → Str → Bool
  | _, [] => true
  | [], _ :: _ => false
  | c :: s, d :: p => if c = d then strStartsWith s p else false

/-- `strings.HasSuffix`, via the reversed strings. -/
def strEndsWith (s suf : Str) : Bool :=
  strStartsWith s.reverse suf.reverse

/-- The sentinel errors of the cache package (`ErrNotFound`, `ErrExpired`,
`ErrInvalidKey`, `ErrInvalidValue`, `ErrBackendClosed`, `ErrMemoryLimit`);
they are pairwise distinct values. `NewError` only wraps the sentinel with
the operation name and key, so the wrapper is not modelled. -/
inductive CacheErr where
  | notFound
  | expired
  | invalidKey
  | invalidValue
  | backendClosed
  | memoryLimit
deriving DecidableEq, Repr

/-- `Entry` from `entry.go`. -/
structure Entry where
  key : Str
  value : List Nat
  createdAt : Nat
  updatedAt : Nat
  expiresAt : Option Nat
  ttl : Int
  hits : Int
  size : Int
deriving DecidableEq, Repr

instance : Inhabited Entry :=
  ⟨{ key := [], value := [], createdAt := 0, updatedAt := 0,
     expiresAt := none, ttl := 0, hits := 0, size := 0 }⟩

/-- `Entry.IsExpired`: false when `ExpiresAt` is the zero time, otherwise
true when `now` is strictly after `ExpiresAt`. -/
def Entry.isExpired (e : Entry) (now : Nat) : Bool :=
  match e.expiresAt with
  | none => false
  | some t => decide (t < now)

/-- `Entry.Clone`. In this value-semantics model the deep copy is the
entry itself. -/
def Entry.clone (e : Entry) : Entry := e

/-- `NewEntry`: `ExpiresAt` is set only for `ttl > 0`. -/
def NewEntry (key : Str) (value : List Nat) (ttl : Int) (now : Nat) : Entry :=
  { key := key
    value := value
    createdAt := now
    updatedAt := now
    expiresAt := if ttl > 0 then some (now + ttl.toNat) else none
    ttl := ttl
    hits := 0
    size := (value.length : Int) }

/-- The counters of `StatsCollector` / `Stats` (the error-message and
timestamp fields carry no claim content and are omitted). -/
structure Stats where
  hits : Int := 0
  misses : Int := 0
  evictions : Int := 0
  entries : Int := 0
  size : Int := 0
  errors : Int := 0
deriving DecidableEq, Repr

/-- `EvictionPolicy` from `backends/memory.go`. -/
inductive EvictionPolicy where
  | lru
  | lfu
  | fifo
deriving DecidableEq, Repr

/-- `MemoryConfig` (the cleanup interval only schedules the background
sweep, which is modelled as an explicit operation, so it is omitted). -/
structure MemoryConfig where
  maxMemory : Int := 0
  maxEntries : Int := 0
  evictionPolicy : EvictionPolicy := .lru
deriving DecidableEq, Repr

/-- `DefaultMemoryConfig`: unlimited memory and entries, LRU. -/
def DefaultMemoryConfig : MemoryConfig :=
  { maxMemory := 0, maxEntries := 0, evictionPolicy := .lru }

/-- The `Memory` backend state. -/
structure Memory where
  data : List (Str × Entry)
  stats : Stats
  config : MemoryConfig
  totalSize : Int
  entryCount : Int
  closed : Bool
deriving DecidableEq, Repr

/-- `NewMemory` (the background cleanup goroutine is modelled by explicit
`cleanupExpired` steps). -/
def NewMemory (cfg : MemoryConfig) : Memory :=
  { data := []
    stats := {}
    config := cfg
    totalSize := 0
    entryCount := 0
    closed := false }

/-- `sync.Map.Load`. -/
def mapLoad : List (Str × Entry) → Str → Option Entry
  | [], _ => none
  | (k, e) :: rest, key => if k = key then some e else mapLoad rest key

/-- `sync.Map.Store`: replace the existing binding in place, else append. -/
def mapStore : List (Str × Entry) → Str → Entry → List (Str × Entry)
  | [], key, e => [(key, e)]
  | (k, e') :: rest, key, e =>
      if k = key then (k, e) :: rest else (k, e') :: mapStore rest key e

/-- `sync.Map.Delete` (first binding; keys are unique in reachable states). -/
def mapDelete : List (Str × Entry) → Str → List (Str × Entry)
  | [], _ => []
  | (k, e) :: rest, key => if k = key then rest else (k, e) :: mapDelete rest key

/-- `Memory.updateSize`: adjusts the running total and bumps the entry
count by the sign of `delta`. -/
def Memory.updateSize (m : Memory) (delta : Int) : Memory :=
  let ts := m.totalSize + delta
  let ec :=
    if delta > 0 then m.entryCount + 1
    else if delta < 0 then m.entryCount - 1
    else m.entryCount
  { m with
      totalSize := ts
      entryCount := ec
      stats := { m.stats with size := ts, entries := ec } }

/-- `StatsCollector.RecordMiss`. -/
def Memory.recordMiss (m : Memory) : Memory :=
  { m with stats := { m.stats with misses := m.stats.misses + 1 } }

/-- `StatsCollector.RecordHit`. -/
def Memory.recordHit (m : Memory) : Memory :=
  { m with stats := { m.stats with hits := m.stats.hits + 1 } }

/-- `StatsCollector.RecordEviction`. -/
def Memory.recordEviction (m : Memory) : Memory :=
  { m with stats := { m.stats with evictions := m.stats.evictions + 1 } }

/-- `Memory.Get`. -/
def Memory.Get (m : Memory) (key : Str) (now : Nat) :
    Memory × Except CacheErr Entry :=
  if m.closed then (m, .error .backendClosed)
  else if key = [] then (m, .error .invalidKey)
  else
    match mapLoad m.data key with
    | none => (m.recordMiss, .error .notFound)
    | some entry =>
        if entry.isExpired now then
          let m1 := m.recordMiss
          let m2 := { m1 with data := mapDelete m1.data key }
          let m3 := m2.updateSize (-entry.size)
          (m3.recordEviction, .error .expired)
        else
          let entry' := { entry with hits := entry.hits + 1, updatedAt := now }
          let m1 := { m with data := mapStore m.data key entry' }
          (m1.recordHit, .ok entry'.clone)

/-- LRU / FIFO victim scan: Go keeps the first entry seen (`oldestTime`
starts at the zero time) and afterwards replaces the victim when the
candidate's time is strictly earlier, or when the current victim's time is
the zero value. -/
def pickOldest (f : Entry → Nat) :
    List (Str × Entry) → Option (Str × Entry) → Option (Str × Entry)
  | [], best => best
  | p :: rest, best =>
      match best with
      | none => pickOldest f rest (some p)
      | some b =>
          if f b.2 = 0 ∨ f p.2 < f b.2 then pickOldest f rest (some p)
          else pickOldest f rest (some b)

/-- LFU victim scan: `lowestHits` starts at `-1` and the victim is
replaced when the candidate has strictly fewer hits. -/
def pickFewest :
    List (Str × Entry) → Option (Str × Entry) → Option (Str × Entry)
  | [], best => best
  | p :: rest, best =>
      match best with
      | none => pickFewest rest (some p)
      | some b =>
          if b.2.hits = -1 ∨ p.2.hits < b.2.hits then pickFewest rest (some p)
          else pickFewest rest (some b)

/-- The victim chosen by `Memory.evictOne`'s `Range` scan. -/
def selectVictim (policy : EvictionPolicy) (data : List (Str × Entry)) :
    Option (Str × Entry) :=
  match policy with
  | .lru => pickOldest (fun e => e.updatedAt) data none
  | .lfu => pickFewest data none
  | .fifo => pickOldest (fun e => e.createdAt) data none

/-- `Memory.evictOne`: fails with `ErrMemoryLimit` when `evictKey` is
still empty after the scan, otherwise removes the victim, adjusts
`totalSize`/`entryCount` directly and records an eviction. -/
def Memory.evictOne (m : Memory) : Memory × Option CacheErr :=
  match selectVictim m.config.evictionPolicy m.data with
  | none => (m, some .memoryLimit)
  | some (k, e) =>
      if k = [] then (m, some .memoryLimit)
      else
        ({ m with
            data := mapDelete m.data k
            totalSize := m.totalSize - e.size
            entryCount := m.entryCount - 1
            stats := { m.stats with evictions := m.stats.evictions + 1 } },
         none)

/-- The `for m.totalSize+newSize > m.config.MaxMemory` loop of
`Memory.makeRoom`, with explicit fuel. Each successful `evictOne` on a
reachable state removes one stored entry, so fuel `m.data.length + 1` is
always sufficient; the zero-fuel case is unreachable at that fuel. -/
def Memory.memLoop : Nat → Memory → Int → Memory × Option CacheErr
  | 0, m, _ => (m, some .memoryLimit)
  | fuel + 1, m, newSize =>
      if m.totalSize + newSize > m.config.maxMemory then
        match m.evictOne with
        | (m1, some e) => (m1, some e)
        | (m1, none) => Memory.memLoop fuel m1 newSize
      else (m, none)

/-- The memory-bound half of `Memory.makeRoom`. -/
def Memory.makeRoomMem (m1 : Memory) (newSize : Int) : Memory × Option CacheErr :=
  if m1.config.maxMemory > 0 then
    Memory.memLoop (m1.data.length + 1) m1 newSize
  else (m1, none)

/-- `Memory.makeRoom`: one eviction when the entry-count bound is hit
(propagating its error), then the byte-size loop. -/
def Memory.makeRoom (m : Memory) (newSize : Int) : Memory × Option CacheErr :=
  if m.config.maxEntries > 0 ∧ m.entryCount ≥ m.config.maxEntries then
    match m.evictOne with
    | (m1, some e) => (m1, some e)
    | (m1, none) => Memory.makeRoomMem m1 newSize
  else Memory.makeRoomMem m newSize

/-- `Memory.Set`. `value = none` models a nil byte slice. -/
def Memory.Set (m : Memory) (key : Str) (value : Option (List Nat))
    (ttl : Int) (now : Nat) : Memory × Option CacheErr :=
  if m.closed then (m, some .backendClosed)
  else if key = [] then (m, some .invalidKey)
  else
    match value with
    | none => (m, some .invalidValue)
    | some v =>
        let entry := NewEntry key v ttl now
        match m.makeRoom entry.size with
        | (m1, some e) => (m1, some e)
        | (m1, none) =>
            let m2 :=
              match mapLoad m1.data key with
              | some oldEntry => m1.updateSize (-oldEntry.size)
              | none => m1
            let m3 := { m2 with data := mapStore m2.data key entry }
            (m3.updateSize entry.size, none)

/-- `Memory.Delete` (`LoadAndDelete` plus size adjustment; absent key is
success). -/
def Memory.Delete (m : Memory) (key : Str) : Memory × Option CacheErr :=
  if m.closed then (m, some .backendClosed)
  else
    match mapLoad m.data key with
    | some e =>
        (({ m with data := mapDelete m.data key }).updateSize (-e.size), none)
    | none => (m, none)

/-- `Memory.Clear`: empties the map and zeroes the gauges. -/
def Memory.Clear (m : Memory) : Memory × Option CacheErr :=
  if m.closed then (m, some .backendClosed)
  else
    ({ m with
        data := []
        totalSize := 0
        entryCount := 0
        stats := { m.stats with size := 0, entries := 0 } },
     none)

/-- `matchPattern` from `backends/memory.go`. -/
def matchPattern (key pat : Str) : Bool :=
  if pat = ['*'] then true
  else if strEndsWith pat ['*'] then strStartsWith key pat.dropLast
  else if strStartsWith pat ['*'] then strEndsWith key (pat.drop 1)
  else key = pat

/-- The `Range` loop of `Memory.Keys`: collect matching, non-expired keys
in iteration order. -/
def keysLoop : List (Str × Entry) → Str → Nat → List Str
  | [], _, _ => []
  | (k, e) :: rest, pat, now =>
      if matchPattern k pat ∧ e.isExpired now = false then
        k :: keysLoop rest pat now
      else keysLoop rest pat now

/-- `Memory.Keys`. -/
def Memory.Keys (m : Memory) (pat : Str) (now : Nat) :
    Except CacheErr (List Str) :=
  if m.closed then .error .backendClosed
  else .ok (keysLoop m.data pat now)

/-- `Memory.Stats`: snapshot of the counters with the gauges overridden by
the authoritative `entryCount` / `totalSize` fields. -/
def Memory.statsSnapshot (m : Memory) : Except CacheErr Stats :=
  if m.closed then .error .backendClosed
  else .ok { m.stats with entries := m.entryCount, size := m.totalSize }

/-- The keys collected by the first `Range` pass of
`Memory.cleanupExpired`. -/
def expiredKeys : List (Str × Entry) → Nat → List Str
  | [], _ => []
  | (k, e) :: rest, now =>
      if e.isExpired now then k :: expiredKeys rest now
      else expiredKeys rest now

/-- The deletion pass of `Memory.cleanupExpired`: `LoadAndDelete` each
collected key, adjust the size and record an eviction. -/
def sweepLoop : Memory → List Str → Memory
  | m, [] => m
  | m, k :: rest =>
      match mapLoad m.data k with
      | some e =>
          sweepLoop
            ((({ m with data := mapDelete m.data k }).updateSize
                (-e.size)).recordEviction)
            rest
      | none => sweepLoop m rest

/-- `Memory.cleanupExpired`, the background TTL sweep body. -/
def Memory.cleanupExpired (m : Memory) (now : Nat) : Memory :=
  sweepLoop m (expiredKeys m.data now)

/-- One completed cache-engine operation, for stating state invariants. -/
inductive Op where
  | get (key : Str)
  | set (key : Str) (value : Option (List Nat)) (ttl : Int)
  | del (key : Str)
  | clear
  | sweep
deriving Repr

/-- The state after one operation (errors included: the claim concerns the
state left behind, successful or failed). -/
def Memory.step (m : Memory) (op : Op) (now : Nat) : Memory :=
  match op with
  | .get k => (m.Get k now).1
  | .set k v t => (m.Set k v t now).1
  | .del k => (m.Delete k).1
  | .clear => m.Clear.1
  | .sweep => m.cleanupExpired now

/-- Sum of the stored entries' `size` fields. -/
def entriesSize : List (Str × Entry) → Int
  | [] => 0
  | (_, e) :: rest => e.size + entriesSize rest

/-- Every stored binding has a non-empty key, an entry whose `key` field
equals its map key, a `size` equal to its value's length, and a positive
size. -/
def goodEntries (l : List (Str × Entry)) : Prop :=
  ∀ p ∈ l, p.1 ≠ [] ∧ p.2.key = p.1 ∧
    p.2.size = (p.2.value.length : Int) ∧ 0 < p.2.size

/-- The map keys are pairwise distinct. -/
def keysNodup (l : List (Str × Entry)) : Prop :=
  (l.map Prod.fst).Nodup

/-- Well-formedness of a `Memory` state: distinct keys, well-formed
entries, and the two gauges equal to the true count and size of the
stored entries. -/
def Memory.WF (m : Memory) : Prop :=
  keysNodup m.data ∧ goodEntries m.data ∧
    m.entryCount = (m.data.length : Int) ∧
    m.totalSize = entriesSize m.data

instance (l : List (Str × Entry)) : Decidable (goodEntries l) := by
  unfold goodEntries; infer_instance

instance (l : List (Str × Entry)) : Decidable (keysNodup l) := by
  unfold keysNodup; infer_instance

instance (m : Memory) : Decidable m.WF := by
  unfold Memory.WF; infer_instance

/-!
The persistence subsystem (`File` backend). The gob encode/decode, fsync
and atomic rename are I/O; the storage contract says the snapshot
round-trips all `Entry` fields exactly, so a snapshot is modelled as the
entry list itself.
-/

/-- The collection loop of `File.Save`: `Get` each key in turn from the
wrapped memory backend (threading its state, since `Get` bumps hit
counters), skipping keys whose `Get` errors. -/
def saveLoop : Memory → List Str → Nat → Memory × List Entry
  | m, [], _ => (m, [])
  | m, k :: ks, now =>
      match m.Get k now with
      | (m1, .ok e) =>
          let r := saveLoop m1 ks now
          (r.1, e :: r.2)
      | (m1, .error _) => saveLoop m1 ks now

/-- `File.Save` on the wrapped memory backend: enumerate via `Keys "*"`,
`Get` each entry, and emit the serialized list (the snapshot). -/
def fileSave (m : Memory) (now : Nat) : Memory × Except CacheErr (List Entry) :=
  match m.Keys ['*'] now with
  | .error e => (m, .error e)
  | .ok ks =>
      let r := saveLoop m ks now
      (r.1, .ok r.2)

/-- One iteration of the reinsertion loop of `File.Load`: skip an entry
expired at load time, recompute the remaining TTL from the stored expiry
instant (skipping when it is negative), and `Set` the survivor into the
wrapped memory backend. -/
def loadStep (m : Memory) (e : Entry) (now : Nat) : Memory :=
  if e.isExpired now then m
  else
    match e.expiresAt with
    | none => (m.Set e.key (some e.value) 0 now).1
    | some t =>
        let ttl : Int := (t : Int) - (now : Int)
        if ttl < 0 then m
        else (m.Set e.key (some e.value) ttl now).1

/-- The reinsertion loop of `File.Load`. -/
def loadLoop : Memory → List Entry → Nat → Memory
  | m, [], _ => m
  | m, e :: rest, now => loadLoop (loadStep m e now) rest now

/-- `File.Load` of a snapshot into a wrapped memory backend `m0` (a fresh
`File` instance starts from `NewMemory` of its memory configuration). -/
def fileLoad (m0 : Memory) (entries : List Entry) (now : Nat) : Memory :=
  loadLoop m0 entries now

/-!
The sync engine (`sync.go`). Event payloads are opaque bytes; the
`json.Marshal` of the raw payload is modelled as the payload itself
(serialization round-trips opaque data). The latency EWMA and the
error-message fields are wall-clock diagnostics with no claim content and
are omitted; the error counter is kept.
-/

/-- `KeyBuilder.Resource`. -/
def KeyBuilder.Resource (rtype rid : Str) : Str :=
  rtype ++ [':'] ++ rid

/-- `resources.EventTypeAdd`. -/
def eventTypeAdd : Str := ['a', 'd', 'd']

/-- `resources.EventTypeUpdate`. -/
def eventTypeUpdate : Str := ['u', 'p', 'd', 'a', 't', 'e']

/-- `resources.EventTypeDelete`. -/
def eventTypeDelete : Str := ['d', 'e', 'l', 'e', 't', 'e']

/-- One change record inside an event (`resources.EventData`): resource
type, resource id, and the opaque payload. -/
structure EventData where
  rtype : Str
  rid : Str
  payload : List Nat
deriving DecidableEq, Repr

/-- An SSE event (`resources.Event`): a kind and its change records. -/
structure Event where
  etype : Str
  data : List EventData
deriving DecidableEq, Repr

/-- The sync-engine counters (`SyncStats`; message/time/latency fields
omitted). -/
structure SyncStats where
  eventsProcessed : Int := 0
  addEvents : Int := 0
  updateEvents : Int := 0
  deleteEvents : Int := 0
  syncErrors : Int := 0
deriving DecidableEq, Repr

/-- The sync engine: its counters and the cache backend it mutates. -/
structure SyncEngine where
  backend : Memory
  stats : SyncStats
deriving Repr

/-- `SyncEngine.handleError` (counter part). -/
def SyncEngine.handleError (s : SyncEngine) : SyncEngine :=
  { s with stats := { s.stats with syncErrors := s.stats.syncErrors + 1 } }

/-- `SyncEngine.processEventData`: dispatch one change record by event
kind, bumping the per-kind counter before applying the mutation; an
unknown kind is an error. -/
def SyncEngine.processEventData (s : SyncEngine) (etype : Str)
    (d : EventData) (now : Nat) : SyncEngine × Option CacheErr :=
  let key := KeyBuilder.Resource d.rtype d.rid
  if etype = eventTypeAdd then
    let s1 := { s with stats := { s.stats with addEvents := s.stats.addEvents + 1 } }
    let r := s1.backend.Set key (some d.payload) 0 now
    ({ s1 with backend := r.1 }, r.2)
  else if etype = eventTypeUpdate then
    let s1 := { s with stats := { s.stats with updateEvents := s.stats.updateEvents + 1 } }
    let r := s1.backend.Set key (some d.payload) 0 now
    ({ s1 with backend := r.1 }, r.2)
  else if etype = eventTypeDelete then
    let s1 := { s with stats := { s.stats with deleteEvents := s.stats.deleteEvents + 1 } }
    let r := s1.backend.Delete key
    ({ s1 with backend := r.1 }, r.2)
  else
    (s, some .invalidValue)

/-- The per-record loop of `SyncEngine.processEvent`: failures are routed
to `handleError` and processing continues. -/
def processDataLoop : SyncEngine → Str → List EventData → Nat → SyncEngine
  | s, _, [], _ => s
  | s, etype, d :: rest, now =>
      match s.processEventData etype d now with
      | (s1, none) => processDataLoop s1 etype rest now
      | (s1, some _) => processDataLoop s1.handleError etype rest now

/-- `SyncEngine.processEvent`: count the event, then process each change
record. -/
def SyncEngine.processEvent (s : SyncEngine) (ev : Event) (now : Nat) :
    SyncEngine :=
  let s1 :=
    { s with stats := { s.stats with eventsProcessed := s.stats.eventsProcessed + 1 } }
  processDataLoop s1 ev.etype ev.data now

/-- A whole event sequence through the subscription loop. -/
def SyncEngine.processAll (s : SyncEngine) (evs : List Event) (now : Nat) :
    SyncEngine :=
  evs.foldl (fun acc ev => acc.processEvent ev now) s

/-- Sum of the per-kind sync counters. -/
def SyncStats.kindSum (st : SyncStats) : Int :=
  st.addEvents + st.updateEvents + st.deleteEvents

/-- An event kind the sync engine recognises. -/
def knownKind (t : Str) : Prop :=
  t = eventTypeAdd ∨ t = eventTypeUpdate ∨ t = eventTypeDelete

instance (t : Str) : Decidable (knownKind t) := by
  unfold knownKind; infer_instance

/-! ### Concrete states used by witnesses and counterexamples -/

/-- A cache holding one entry under `"k"` that expires at instant 1. -/
def mEx : Memory := ((NewMemory DefaultMemoryConfig).Set (['k']) (some [7]) 1 0).1

/-- A cache holding one never-expiring entry under `"k"`. -/
def m3A : Memory := ((NewMemory DefaultMemoryConfig).Set (['k']) (some [7]) 0 0).1

/-- `m3A` after one successful `Get` (the stored entry has one hit). -/
def m3B : Memory := (m3A.Get (['k']) 1).1

/-- A configuration bounded to one entry. -/
def cfgOne : MemoryConfig := { maxMemory := 0, maxEntries := 1, evictionPolicy := .lru }

/-- A one-entry-bound cache holding `"a"`, i.e. exactly at `max_entries`. -/
def m4A : Memory := ((NewMemory cfgOne).Set (['a']) (some [1]) 0 0).1

/-- A configuration bounded to 2 bytes. -/
def cfgTiny : MemoryConfig := { maxMemory := 2, maxEntries := 0, evictionPolicy := .lru }

/-- A 2-byte-bound cache holding a 1-byte entry under `"a"`. -/
def m6A : Memory := ((NewMemory cfgTiny).Set (['a']) (some [1]) 0 0).1

/-- A fresh sync engine over a fresh unbounded memory backend. -/
def se0 : SyncEngine := { backend := NewMemory DefaultMemoryConfig, stats := {} }

/-- An `"add"` event carrying two change records. -/
def evAdd2 : Event :=
  { etype := eventTypeAdd
    data := [{ rtype := ['l'], rid := ['1'], payload := [1] },
             { rtype := ['l'], rid := ['2'], payload := [2] }] }

/-- An `"add"` event carrying one change record. -/
def evAdd1 : Event :=
  { etype := eventTypeAdd
    data := [{ rtype := ['l'], rid := ['1'], payload := [1] }] }

/-! ### Lemmas about the association-list map -/

theorem mapLoad_mapStore_self (l : List (Str × Entry)) (k : Str) (e : Entry) :
    mapLoad (mapStore l k e) k = some e := by
  induction l with
  | nil => simp [mapStore, mapLoad]
  | cons p rest ih =>
      obtain ⟨k', e'⟩ := p
      by_cases h : k' = k <;> simp [mapStore, mapLoad, h, ih]

theorem mapLoad_mapStore_ne (l : List (Str × Entry)) (k k' : Str) (e : Entry)
    (h : k ≠ k') : mapLoad (mapStore l k e) k' = mapLoad l k' := by
  induction l with
  | nil => simp [mapStore, mapLoad, h]
  | cons p rest ih =>
      obtain ⟨k₀, e₀⟩ := p
      by_cases h0 : k₀ = k
      · subst h0; simp [mapStore, mapLoad, h]
      · simp [mapStore, mapLoad, h0, ih]

theorem mapLoad_mapDelete_ne (l : List (Str × Entry)) (k k' : Str)
    (h : k ≠ k') : mapLoad (mapDelete l k) k' = mapLoad l k' := by
  induction l with
  | nil => simp [mapDelete, mapLoad]
  | cons p rest ih =>
      obtain ⟨k₀, e₀⟩ := p
      by_cases h0 : k₀ = k
      · subst h0; simp [mapDelete, mapLoad, h, ih]
      · simp [mapDelete, mapLoad, h0, ih]

theorem mapLoad_eq_none_iff (l : List (Str × Entry)) (k : Str) :
    mapLoad l k = none ↔ k ∉ l.map Prod.fst := by
  induction l with
  | nil => simp [mapLoad]
  | cons p rest ih =>
      obtain ⟨k₀, e₀⟩ := p
      by_cases h0 : k₀ = k
      · subst h0; simp [mapLoad]
      · simp [mapLoad, h0, ih, Ne.symm h0]

theorem mapLoad_mapDelete_self {l : List (Str × Entry)} (hnd : keysNodup l)
    (k : Str) : mapLoad (mapDelete l k) k = none := by
  induction l with
  | nil => simp [mapDelete, mapLoad]
  | cons p rest ih =>
      obtain ⟨k₀, e₀⟩ := p
      unfold keysNodup at hnd
      simp only [List.map_cons, List.nodup_cons] at hnd
      by_cases h0 : k₀ = k
      · subst h0
        simp only [mapDelete, if_pos rfl]
        rw [mapLoad_eq_none_iff]
        exact hnd.1
      · simp [mapDelete, mapLoad, h0]
        exact ih hnd.2

theorem mem_of_mapLoad_eq_some {l : List (Str × Entry)} {k : Str} {e : Entry}
    (h : mapLoad l k = some e) : (k, e) ∈ l := by
  induction l with
  | nil => simp [mapLoad] at h
  | cons p rest ih =>
      obtain ⟨k₀, e₀⟩ := p
      by_cases h0 : k₀ = k
      · subst h0
        simp [mapLoad] at h
        simp [h]
      · simp [mapLoad, h0] at h
        exact List.mem_cons_of_mem _ (ih h)

theorem mapLoad_eq_some_of_mem {l : List (Str × Entry)} {k : Str} {e : Entry}
    (hnd : keysNodup l) (h : (k, e) ∈ l) : mapLoad l k = some e := by
  induction l with
  | nil => simp at h
  | cons p rest ih =>
      obtain ⟨k₀, e₀⟩ := p
      unfold keysNodup at hnd
      simp only [List.map_cons, List.nodup_cons] at hnd
      rcases List.mem_cons.mp h with h1 | h1
      · obtain ⟨rfl, rfl⟩ := Prod.mk.injEq .. ▸ h1
        simp_all [mapLoad]
      · have hk : k₀ ≠ k := by
          rintro rfl
          exact hnd.1 (List.mem_map.mpr ⟨(k₀, e), h1, rfl⟩)
        simp [mapLoad, hk]
        exact ih hnd.2 h1

theorem mapStore_map_fst_of_some {l : List (Str × Entry)} {k : Str}
    {e0 e : Entry} (h : mapLoad l k = some e0) :
    (mapStore l k e).map Prod.fst = l.map Prod.fst := by
  induction l with
  | nil => simp [mapLoad] at h
  | cons p rest ih =>
      obtain ⟨k₀, e₀⟩ := p
      by_cases h0 : k₀ = k
      · subst h0; simp [mapStore]
      · simp [mapLoad, h0] at h
        simp [mapStore, h0, ih h]

theorem mapStore_map_fst_of_none {l : List (Str × Entry)} {k : Str}
    {e : Entry} (h : mapLoad l k = none) :
    (mapStore l k e).map Prod.fst = l.map Prod.fst ++ [k] := by
  induction l with
  | nil => simp [mapStore]
  | cons p rest ih =>
      obtain ⟨k₀, e₀⟩ := p
      by_cases h0 : k₀ = k
      · subst h0; simp [mapLoad] at h
      · simp [mapLoad, h0] at h
        simp [mapStore, h0, ih h]

theorem mapStore_length_of_some {l : List (Str × Entry)} {k : Str}
    {e0 e : Entry} (h : mapLoad l k = some e0) :
    (mapStore l k e).length = l.length := by
  have := mapStore_map_fst_of_some (e := e) h
  have h1 := congrArg List.length this
  simpa using h1

theorem mapStore_length_of_none {l : List (Str × Entry)} {k : Str}
    {e : Entry} (h : mapLoad l k = none) :
    (mapStore l k e).length = l.length + 1 := by
  have := mapStore_map_fst_of_none (e := e) h
  have h1 := congrArg List.length this
  simpa using h1

theorem entriesSize_mapStore_of_some {l : List (Str × Entry)} {k : Str}
    {e0 e : Entry} (h : mapLoad l k = some e0) :
    entriesSize (mapStore l k e) = entriesSize l - e0.size + e.size := by
  induction l with
  | nil => simp [mapLoad] at h
  | cons p rest ih =>
      obtain ⟨k₀, e₀⟩ := p
      by_cases h0 : k₀ = k
      · subst h0
        simp [mapLoad] at h
        subst h
        simp [mapStore, entriesSize]
        try ring
      · simp [mapLoad, h0] at h
        simp [mapStore, entriesSize, h0, ih h]
        try ring

theorem entriesSize_mapStore_of_none {l : List (Str × Entry)} {k : Str}
    {e : Entry} (h : mapLoad l k = none) :
    entriesSize (mapStore l k e) = entriesSize l + e.size := by
  induction l with
  | nil => simp [mapStore, entriesSize]
  | cons p rest ih =>
      obtain ⟨k₀, e₀⟩ := p
      by_cases h0 : k₀ = k
      · subst h0; simp [mapLoad] at h
      · simp [mapLoad, h0] at h
        simp [mapStore, entriesSize, h0, ih h]
        try ring

theorem mapDelete_length_of_some {l : List (Str × Entry)} {k : Str}
    {e : Entry} (h : mapLoad l k = some e) :
    (mapDelete l k).length + 1 = l.length := by
  induction l with
  | nil => simp [mapLoad] at h
  | cons p rest ih =>
      obtain ⟨k₀, e₀⟩ := p
      by_cases h0 : k₀ = k
      · subst h0; simp [mapDelete]
      · simp [mapLoad, h0] at h
        simp [mapDelete, h0, ih h]

theorem entriesSize_mapDelete_of_some {l : List (Str × Entry)} {k : Str}
    {e : Entry} (h : mapLoad l k = some e) :
    entriesSize (mapDelete l k) = entriesSize l - e.size := by
  induction l with
  | nil => simp [mapLoad] at h
  | cons p rest ih =>
      obtain ⟨k₀, e₀⟩ := p
      by_cases h0 : k₀ = k
      · subst h0
        simp [mapLoad] at h
        subst h
        simp [mapDelete, entriesSize]
      · simp [mapLoad, h0] at h
        simp [mapDelete, entriesSize, h0, ih h]
        try ring

theorem mapDelete_map_fst_sublist (l : List (Str × Entry)) (k : Str) :
    List.Sublist ((mapDelete l k).map Prod.fst) (l.map Prod.fst) := by
  induction l with
  | nil => simp [mapDelete]
  | cons p rest ih =>
      obtain ⟨k₀, e₀⟩ := p
      by_cases h0 : k₀ = k
      · subst h0
        simp [mapDelete]
      · simp [mapDelete, h0]
        exact ih

theorem mem_mapDelete {l : List (Str × Entry)} {k : Str} {p : Str × Entry}
    (h : p ∈ mapDelete l k) : p ∈ l := by
  induction l with
  | nil => simp [mapDelete] at h
  | cons q rest ih =>
      obtain ⟨k₀, e₀⟩ := q
      by_cases h0 : k₀ = k
      · subst h0
        simp [mapDelete] at h
        exact List.mem_cons_of_mem _ h
      · simp [mapDelete, h0] at h
        rcases h with h | h
        · simp [h]
        · exact List.mem_cons_of_mem _ (ih h)

theorem mem_mapStore {l : List (Str × Entry)} {k : Str} {e : Entry}
    {p : Str × Entry} (h : p ∈ mapStore l k e) : p ∈ l ∨ p = (k, e) := by
  induction l with
  | nil => simp [mapStore] at h; simp [h]
  | cons q rest ih =>
      obtain ⟨k₀, e₀⟩ := q
      by_cases h0 : k₀ = k
      · subst h0
        simp [mapStore] at h
        rcases h with h | h
        · right; simp [h]
        · left; exact List.mem_cons_of_mem _ h
      · simp [mapStore, h0] at h
        rcases h with h | h
        · left; simp [h]
        · rcases ih h with h1 | h1
          · left; exact List.mem_cons_of_mem _ h1
          · right; exact h1

theorem keysNodup_mapStore {l : List (Str × Entry)} {k : Str} {e : Entry}
    (hnd : keysNodup l) : keysNodup (mapStore l k e) := by
  unfold keysNodup at *
  cases h : mapLoad l k with
  | some e0 => rw [mapStore_map_fst_of_some h]; exact hnd
  | none =>
      rw [mapStore_map_fst_of_none h]
      have hk : k ∉ l.map Prod.fst := (mapLoad_eq_none_iff l k).mp h
      simpa [List.nodup_append] using
        ⟨hnd, fun x hx => hk (List.mem_map.mpr ⟨(k, x), hx, rfl⟩)⟩

theorem keysNodup_mapDelete {l : List (Str × Entry)} {k : Str}
    (hnd : keysNodup l) : keysNodup (mapDelete l k) :=
  List.Nodup.sublist (mapDelete_map_fst_sublist l k) hnd

theorem goodEntries_mapDelete {l : List (Str × Entry)} {k : Str}
    (hg : goodEntries l) : goodEntries (mapDelete l k) :=
  fun p hp => hg p (mem_mapDelete hp)

theorem goodEntries_mapStore {l : List (Str × Entry)} {k : Str} {e : Entry}
    (hg : goodEntries l) (hk : k ≠ []) (hke : e.key = k)
    (he : e.size = (e.value.length : Int)) (hs : 0 < e.size) :
    goodEntries (mapStore l k e) := by
  intro p hp
  rcases mem_mapStore hp with h | h
  · exact hg p h
  · subst h; exact ⟨hk, hke, he, hs⟩

theorem entriesSize_nonneg {l : List (Str × Entry)} (hg : goodEntries l) :
    0 ≤ entriesSize l := by
  induction l with
  | nil => simp [entriesSize]
  | cons p rest ih =>
      simp only [entriesSize]
      have h1 := (hg p (List.mem_cons_self p rest)).2.2.2
      have h2 := ih (fun q hq => hg q (List.mem_cons_of_mem _ hq))
      omega

/-! ### Lemmas about victim selection and eviction -/

theorem pickOldest_mem {f : Entry → Nat} {l : List (Str × Entry)}
    {acc : Option (Str × Entry)} {r : Str × Entry}
    (h : pickOldest f l acc = some r) : r ∈ l ∨ acc = some r := by
  induction l generalizing acc with
  | nil =>
      simp only [pickOldest] at h
      right; exact h
  | cons p rest ih =>
      match acc with
      | none =>
          simp only [pickOldest] at h
          rcases ih h with h1 | h1
          · exact Or.inl (List.mem_cons_of_mem _ h1)
          · left
            simp only [Option.some.injEq] at h1
            simp [h1]
      | some b =>
          simp only [pickOldest] at h
          by_cases hc : f b.2 = 0 ∨ f p.2 < f b.2
          · rw [if_pos hc] at h
            rcases ih h with h1 | h1
            · exact Or.inl (List.mem_cons_of_mem _ h1)
            · left
              simp only [Option.some.injEq] at h1
              simp [h1]
          · rw [if_neg hc] at h
            rcases ih h with h1 | h1
            · exact Or.inl (List.mem_cons_of_mem _ h1)
            · right; exact h1

theorem pickFewest_mem {l : List (Str × Entry)}
    {acc : Option (Str × Entry)} {r : Str × Entry}
    (h : pickFewest l acc = some r) : r ∈ l ∨ acc = some r := by
  induction l generalizing acc with
  | nil =>
      simp only [pickFewest] at h
      right; exact h
  | cons p rest ih =>
      match acc with
      | none =>
          simp only [pickFewest] at h
          rcases ih h with h1 | h1
          · exact Or.inl (List.mem_cons_of_mem _ h1)
          · left
            simp only [Option.some.injEq] at h1
            simp [h1]
      | some b =>
          simp only [pickFewest] at h
          by_cases hc : b.2.hits = -1 ∨ p.2.hits < b.2.hits
          · rw [if_pos hc] at h
            rcases ih h with h1 | h1
            · exact Or.inl (List.mem_cons_of_mem _ h1)
            · left
              simp only [Option.some.injEq] at h1
              simp [h1]
          · rw [if_neg hc] at h
            rcases ih h with h1 | h1
            · exact Or.inl (List.mem_cons_of_mem _ h1)
            · right; exact h1

theorem pickOldest_isSome (f : Entry → Nat) (l : List (Str × Entry))
    (b : Str × Entry) : ∃ r, pickOldest f l (some b) = some r := by
  induction l generalizing b with
  | nil => exact ⟨b, rfl⟩
  | cons p rest ih =>
      simp only [pickOldest]
      by_cases hc : f b.2 = 0 ∨ f p.2 < f b.2
      · rw [if_pos hc]; exact ih p
      · rw [if_neg hc]; exact ih b

theorem pickFewest_isSome (l : List (Str × Entry)) (b : Str × Entry) :
    ∃ r, pickFewest l (some b) = some r := by
  induction l generalizing b with
  | nil => exact ⟨b, rfl⟩
  | cons p rest ih =>
      simp only [pickFewest]
      by_cases hc : b.2.hits = -1 ∨ p.2.hits < b.2.hits
      · rw [if_pos hc]; exact ih p
      · rw [if_neg hc]; exact ih b

theorem selectVictim_nil (policy : EvictionPolicy) :
    selectVictim policy [] = none := by
  cases policy <;> rfl

theorem selectVictim_mem {policy : EvictionPolicy}
    {l : List (Str × Entry)} {r : Str × Entry}
    (h : selectVictim policy l = some r) : r ∈ l := by
  cases policy with
  | lru =>
      simp only [selectVictim] at h
      rcases pickOldest_mem h with h1 | h1
      · exact h1
      · exact absurd h1 (by simp)
  | lfu =>
      simp only [selectVictim] at h
      rcases pickFewest_mem h with h1 | h1
      · exact h1
      · exact absurd h1 (by simp)
  | fifo =>
      simp only [selectVictim] at h
      rcases pickOldest_mem h with h1 | h1
      · exact h1
      · exact absurd h1 (by simp)

theorem selectVictim_cons_isSome (policy : EvictionPolicy)
    (p : Str × Entry) (rest : List (Str × Entry)) :
    ∃ r, selectVictim policy (p :: rest) = some r := by
  cases policy <;> simp only [selectVictim, pickOldest, pickFewest]
  · exact pickOldest_isSome _ rest p
  · exact pickFewest_isSome rest p
  · exact pickOldest_isSome _ rest p

/-- On a well-formed state, `evictOne` either finds the map empty and
fails with the capacity error, leaving the state untouched, or removes
exactly one stored entry, preserving well-formedness, the configuration,
the closed flag and all statistics except the eviction counter. -/
theorem Memory.evictOne_cases (m : Memory) (hwf : m.WF) :
    (m.data = [] ∧ m.evictOne = (m, some .memoryLimit)) ∨
    (m.evictOne.2 = none ∧ m.evictOne.1.WF ∧
      m.evictOne.1.data.length + 1 = m.data.length ∧
      m.evictOne.1.config = m.config ∧
      m.evictOne.1.closed = m.closed ∧
      m.evictOne.1.stats.misses = m.stats.misses ∧
      m.evictOne.1.stats.hits = m.stats.hits ∧
      m.evictOne.1.stats.evictions = m.stats.evictions + 1) := by
  obtain ⟨hnd, hg, hcount, hsize⟩ := hwf
  cases hd : m.data with
  | nil =>
      left
      refine ⟨rfl, ?_⟩
      unfold Memory.evictOne
      rw [hd, selectVictim_nil]
  | cons p rest =>
      right
      obtain ⟨r, hr⟩ := selectVictim_cons_isSome m.config.evictionPolicy p rest
      have hr' : selectVictim m.config.evictionPolicy m.data = some r := by
        rw [hd]; exact hr
      have hmem : r ∈ m.data := by
        have := selectVictim_mem hr'
        exact this
      obtain ⟨k, e⟩ := r
      have hk : k ≠ [] := (hg _ hmem).1
      have hload : mapLoad m.data k = some e := mapLoad_eq_some_of_mem hnd hmem
      have hlen := mapDelete_length_of_some hload
      have heq : m.evictOne =
          ({ m with
              data := mapDelete m.data k
              totalSize := m.totalSize - e.size
              entryCount := m.entryCount - 1
              stats := { m.stats with evictions := m.stats.evictions + 1 } },
            none) := by
        unfold Memory.evictOne
        rw [hr']
        simp [hk]
      rw [heq]
      refine ⟨rfl, ⟨keysNodup_mapDelete hnd, goodEntries_mapDelete hg, ?_, ?_⟩,
        ?_, rfl, rfl, rfl, rfl, rfl⟩
      · simp only
        omega
      · simp only
        rw [entriesSize_mapDelete_of_some hload, ← hsize]
      · rw [← hd]
        exact hlen

/-- `memLoop` preserves well-formedness, the configuration and the closed
flag. -/
theorem Memory.memLoop_WF (fuel : Nat) (m : Memory) (ns : Int) (hwf : m.WF) :
    (Memory.memLoop fuel m ns).1.WF ∧
    (Memory.memLoop fuel m ns).1.config = m.config ∧
    (Memory.memLoop fuel m ns).1.closed = m.closed := by
  induction fuel generalizing m with
  | zero => exact ⟨hwf, rfl, rfl⟩
  | succ n ih =>
      unfold Memory.memLoop
      by_cases hc : m.totalSize + ns > m.config.maxMemory
      · rw [if_pos hc]
        rcases Memory.evictOne_cases m hwf with ⟨hd, heq⟩ |
          ⟨h2, hwf', hlen, hcfg, hcl, _⟩
        · simp only [heq]
          exact ⟨hwf, trivial, trivial⟩
        · cases hev : m.evictOne with
          | mk m1 err =>
              rw [hev] at h2 hwf' hcfg hcl
              simp only at h2 hwf' hcfg hcl
              subst h2
              simp only [hev]
              have hrec := ih m1 hwf'
              exact ⟨hrec.1, by rw [hrec.2.1, hcfg], by rw [hrec.2.2, hcl]⟩
      · rw [if_neg hc]
        exact ⟨hwf, rfl, rfl⟩

/-- `makeRoomMem` preserves well-formedness, the configuration and the
closed flag. -/
theorem Memory.makeRoomMem_WF (m : Memory) (ns : Int) (hwf : m.WF) :
    (m.makeRoomMem ns).1.WF ∧ (m.makeRoomMem ns).1.config = m.config ∧
    (m.makeRoomMem ns).1.closed = m.closed := by
  unfold Memory.makeRoomMem
  by_cases hmm : m.config.maxMemory > 0
  · rw [if_pos hmm]
    exact Memory.memLoop_WF (m.data.length + 1) m ns hwf
  · rw [if_neg hmm]
    exact ⟨hwf, rfl, rfl⟩

/-- `makeRoom` preserves well-formedness, the configuration and the
closed flag. -/
theorem Memory.makeRoom_WF (m : Memory) (ns : Int) (hwf : m.WF) :
    (m.makeRoom ns).1.WF ∧ (m.makeRoom ns).1.config = m.config ∧
    (m.makeRoom ns).1.closed = m.closed := by
  unfold Memory.makeRoom
  by_cases hb : m.config.maxEntries > 0 ∧ m.entryCount ≥ m.config.maxEntries
  · rw [if_pos hb]
    rcases Memory.evictOne_cases m hwf with ⟨hd, heq⟩ |
      ⟨h2, hwf', hlen, hcfg, hcl, _⟩
    · simp only [heq]
      exact ⟨hwf, trivial, trivial⟩
    · cases hev : m.evictOne with
      | mk m1 err =>
          rw [hev] at h2 hwf' hcfg hcl
          simp only at h2 hwf' hcfg hcl
          subst h2
          simp only [hev]
          have hrec := Memory.makeRoomMem_WF m1 ns hwf'
          exact ⟨hrec.1, by rw [hrec.2.1, hcfg], by rw [hrec.2.2, hcl]⟩
  · rw [if_neg hb]
    exact Memory.makeRoomMem_WF m ns hwf

/-- When the new entry alone exceeds the byte bound, the eviction loop
empties the map and then fails with the capacity error. -/
theorem Memory.memLoop_over (fuel : Nat) (m : Memory) (ns : Int)
    (hwf : m.WF) (hover : m.config.maxMemory < ns)
    (hfuel : m.data.length < fuel) :
    (Memory.memLoop fuel m ns).2 = some CacheErr.memoryLimit ∧
    (Memory.memLoop fuel m ns).1.data = [] := by
  induction fuel generalizing m with
  | zero => omega
  | succ n ih =>
      unfold Memory.memLoop
      have hnn : 0 ≤ m.totalSize := hwf.2.2.2 ▸ entriesSize_nonneg hwf.2.1
      have hc : m.totalSize + ns > m.config.maxMemory := by omega
      rw [if_pos hc]
      rcases Memory.evictOne_cases m hwf with ⟨hd, heq⟩ |
        ⟨h2, hwf', hlen, hcfg, hcl, _⟩
      · simp only [heq]
        exact ⟨trivial, hd⟩
      · cases hev : m.evictOne with
        | mk m1 err =>
            rw [hev] at h2 hwf' hlen hcfg
            simp only at h2 hwf' hlen hcfg
            subst h2
            simp only [hev]
            exact ih m1 hwf' (hcfg ▸ hover) (by omega)

/-- `makeRoom` for an entry larger than a positive byte bound: capacity
error with the map emptied. -/
theorem Memory.makeRoom_over (m : Memory) (ns : Int) (hwf : m.WF)
    (hover : m.config.maxMemory < ns) (hmm : 0 < m.config.maxMemory) :
    (m.makeRoom ns).2 = some CacheErr.memoryLimit ∧
    (m.makeRoom ns).1.data = [] := by
  have hmem : ∀ m1 : Memory, m1.WF → m1.config = m.config →
      (m1.makeRoomMem ns).2 = some CacheErr.memoryLimit ∧
      (m1.makeRoomMem ns).1.data = [] := by
    intro m1 hwf1 hcfg1
    unfold Memory.makeRoomMem
    rw [if_pos (by rw [hcfg1]; exact hmm)]
    exact Memory.memLoop_over (m1.data.length + 1) m1 ns hwf1
      (hcfg1 ▸ hover) (by omega)
  unfold Memory.makeRoom
  by_cases hb : m.config.maxEntries > 0 ∧ m.entryCount ≥ m.config.maxEntries
  · rw [if_pos hb]
    rcases Memory.evictOne_cases m hwf with ⟨hd, heq⟩ |
      ⟨h2, hwf', hlen, hcfg, hcl, _⟩
    · exfalso
      have h0 : m.entryCount = 0 := by
        have := hwf.2.2.1
        rw [hd] at this
        simpa using this
      omega
    · cases hev : m.evictOne with
      | mk m1 err =>
          rw [hev] at h2 hwf' hcfg
          simp only at h2 hwf' hcfg
          subst h2
          simp only [hev]
          exact hmem m1 hwf' hcfg
  · rw [if_neg hb]
    exact hmem m hwf rfl

/-- With both bounds unset, `makeRoom` is the identity. -/
theorem Memory.makeRoom_unbounded (m : Memory) (ns : Int)
    (h1 : m.config.maxEntries = 0) (h2 : m.config.maxMemory = 0) :
    m.makeRoom ns = (m, none) := by
  unfold Memory.makeRoom Memory.makeRoomMem
  simp [h1, h2]

/-! ### Branch equations for the cache operations -/

theorem Memory.Get_closed (m : Memory) (k : Str) (now : Nat)
    (h : m.closed = true) : m.Get k now = (m, .error .backendClosed) := by
  simp [Memory.Get, h]

theorem Memory.Get_emptyKey (m : Memory) (now : Nat)
    (h : m.closed = false) : m.Get [] now = (m, .error .invalidKey) := by
  simp [Memory.Get, h]

theorem Memory.Get_notFound (m : Memory) (k : Str) (now : Nat)
    (h1 : m.closed = false) (h2 : k ≠ []) (h3 : mapLoad m.data k = none) :
    m.Get k now = (m.recordMiss, .error .notFound) := by
  simp [Memory.Get, h1, h2, h3]

theorem Memory.Get_expired (m : Memory) (k : Str) (now : Nat) (entry : Entry)
    (h1 : m.closed = false) (h2 : k ≠ [])
    (h3 : mapLoad m.data k = some entry) (h4 : entry.isExpired now = true) :
    m.Get k now =
      ((({ m.recordMiss with data := mapDelete m.data k }).updateSize
          (-entry.size)).recordEviction, .error .expired) := by
  simp [Memory.Get, h1, h2, h3, h4, Memory.recordMiss]

theorem Memory.Get_hit (m : Memory) (k : Str) (now : Nat) (entry : Entry)
    (h1 : m.closed = false) (h2 : k ≠ [])
    (h3 : mapLoad m.data k = some entry) (h4 : entry.isExpired now = false) :
    m.Get k now =
      (({ m with
            data := mapStore m.data k
              { entry with hits := entry.hits + 1, updatedAt := now } }).recordHit,
        .ok { entry with hits := entry.hits + 1, updatedAt := now }) := by
  simp [Memory.Get, h1, h2, h3, h4, Entry.clone]

theorem Memory.Set_closed (m : Memory) (k : Str) (v : Option (List Nat))
    (ttl : Int) (now : Nat) (h : m.closed = true) :
    m.Set k v ttl now = (m, some .backendClosed) := by
  simp [Memory.Set, h]

theorem Memory.Set_emptyKey (m : Memory) (v : Option (List Nat))
    (ttl : Int) (now : Nat) (h : m.closed = false) :
    m.Set [] v ttl now = (m, some .invalidKey) := by
  simp [Memory.Set, h]

theorem Memory.Set_nilValue (m : Memory) (k : Str) (ttl : Int) (now : Nat)
    (h1 : m.closed = false) (h2 : k ≠ []) :
    m.Set k none ttl now = (m, some .invalidValue) := by
  simp [Memory.Set, h1, h2]

theorem Memory.Set_roomErr (m m1 : Memory) (k : Str) (w : List Nat)
    (ttl : Int) (now : Nat) (err : CacheErr)
    (h1 : m.closed = false) (h2 : k ≠ [])
    (hmr : m.makeRoom (NewEntry k w ttl now).size = (m1, some err)) :
    m.Set k (some w) ttl now = (m1, some err) := by
  simp [Memory.Set, h1, h2, hmr]

theorem Memory.Set_over (m m1 : Memory) (k : Str) (w : List Nat)
    (ttl : Int) (now : Nat) (old : Entry)
    (h1 : m.closed = false) (h2 : k ≠ [])
    (hmr : m.makeRoom (NewEntry k w ttl now).size = (m1, none))
    (hload : mapLoad m1.data k = some old) :
    m.Set k (some w) ttl now =
      (({ m1.updateSize (-old.size) with
            data := mapStore m1.data k (NewEntry k w ttl now) }).updateSize
          (NewEntry k w ttl now).size, none) := by
  simp [Memory.Set, h1, h2, hmr, hload, Memory.updateSize]

theorem Memory.Set_fresh (m m1 : Memory) (k : Str) (w : List Nat)
    (ttl : Int) (now : Nat)
    (h1 : m.closed = false) (h2 : k ≠ [])
    (hmr : m.makeRoom (NewEntry k w ttl now).size = (m1, none))
    (hload : mapLoad m1.data k = none) :
    m.Set k (some w) ttl now =
      (({ m1 with
            data := mapStore m1.data k (NewEntry k w ttl now) }).updateSize
          (NewEntry k w ttl now).size, none) := by
  simp [Memory.Set, h1, h2, hmr, hload]

theorem Memory.Delete_closed (m : Memory) (k : Str) (h : m.closed = true) :
    m.Delete k = (m, some .backendClosed) := by
  simp [Memory.Delete, h]

theorem Memory.Delete_missing (m : Memory) (k : Str)
    (h1 : m.closed = false) (h2 : mapLoad m.data k = none) :
    m.Delete k = (m, none) := by
  simp [Memory.Delete, h1, h2]

theorem Memory.Delete_found (m : Memory) (k : Str) (entry : Entry)
    (h1 : m.closed = false) (h2 : mapLoad m.data k = some entry) :
    m.Delete k =
      (({ m with data := mapDelete m.data k }).updateSize (-entry.size),
        none) := by
  simp [Memory.Delete, h1, h2]

theorem Memory.Clear_closed (m : Memory) (h : m.closed = true) :
    m.Clear = (m, some .backendClosed) := by
  simp [Memory.Clear, h]

theorem Memory.Clear_open (m : Memory) (h : m.closed = false) :
    m.Clear =
      ({ m with
          data := []
          totalSize := 0
          entryCount := 0
          stats := { m.stats with size := 0, entries := 0 } }, none) := by
  simp [Memory.Clear, h]

/-! ### Well-formedness preservation by each cache operation -/

theorem Memory.Get_WF (m : Memory) (k : Str) (now : Nat) (hwf : m.WF) :
    (m.Get k now).1.WF := by
  obtain ⟨hnd, hg, hcount, hsize⟩ := hwf
  by_cases hcl : m.closed
  · rw [Memory.Get_closed m k now hcl]; exact ⟨hnd, hg, hcount, hsize⟩
  · rw [Bool.not_eq_true] at hcl
    by_cases hk : k = []
    · subst hk
      rw [Memory.Get_emptyKey m now hcl]
      exact ⟨hnd, hg, hcount, hsize⟩
    · cases hload : mapLoad m.data k with
      | none =>
          rw [Memory.Get_notFound m k now hcl hk hload]
          exact ⟨hnd, hg, hcount, hsize⟩
      | some entry =>
          have hmem := mem_of_mapLoad_eq_some hload
          cases hexp : entry.isExpired now with
          | true =>
              rw [Memory.Get_expired m k now entry hcl hk hload hexp]
              have hpos : 0 < entry.size := (hg _ hmem).2.2.2
              have hlen := mapDelete_length_of_some hload
              have hes := entriesSize_mapDelete_of_some hload
              have h1 : ¬ (-entry.size > 0) := by omega
              have h2 : -entry.size < 0 := by omega
              refine ⟨?_, ?_, ?_, ?_⟩
              · simpa [Memory.updateSize, Memory.recordMiss,
                  Memory.recordEviction] using keysNodup_mapDelete (k := k) hnd
              · simpa [Memory.updateSize, Memory.recordMiss,
                  Memory.recordEviction] using goodEntries_mapDelete (k := k) hg
              · simp [Memory.updateSize, Memory.recordMiss,
                  Memory.recordEviction, h1, h2]
                omega
              · simp [Memory.updateSize, Memory.recordMiss,
                  Memory.recordEviction, hes]
                omega
          | false =>
              rw [Memory.Get_hit m k now entry hcl hk hload hexp]
              obtain ⟨hkey, hkf, hsz, hpos⟩ := hg _ hmem
              have hlen := mapStore_length_of_some
                (e := { entry with hits := entry.hits + 1, updatedAt := now }) hload
              have hes := entriesSize_mapStore_of_some
                (e := { entry with hits := entry.hits + 1, updatedAt := now }) hload
              refine ⟨?_, ?_, ?_, ?_⟩
              · simpa [Memory.recordHit] using keysNodup_mapStore (k := k)
                  (e := { entry with hits := entry.hits + 1, updatedAt := now }) hnd
              · simpa [Memory.recordHit] using
                  goodEntries_mapStore (l := m.data) (k := k)
                    (e := { entry with hits := entry.hits + 1, updatedAt := now })
                    hg hk (by simpa using hkf) hsz hpos
              · simp [Memory.recordHit, hlen]
                omega
              · simp [Memory.recordHit, hes]
                omega

theorem Memory.Delete_WF (m : Memory) (k : Str) (hwf : m.WF) :
    (m.Delete k).1.WF := by
  obtain ⟨hnd, hg, hcount, hsize⟩ := hwf
  by_cases hcl : m.closed
  · rw [Memory.Delete_closed m k hcl]; exact ⟨hnd, hg, hcount, hsize⟩
  · rw [Bool.not_eq_true] at hcl
    cases hload : mapLoad m.data k with
    | none =>
        rw [Memory.Delete_missing m k hcl hload]
        exact ⟨hnd, hg, hcount, hsize⟩
    | some entry =>
        rw [Memory.Delete_found m k entry hcl hload]
        have hmem := mem_of_mapLoad_eq_some hload
        have hpos : 0 < entry.size := (hg _ hmem).2.2.2
        have hlen := mapDelete_length_of_some hload
        have hes := entriesSize_mapDelete_of_some hload
        have h1 : ¬ (-entry.size > 0) := by omega
        have h2 : -entry.size < 0 := by omega
        refine ⟨?_, ?_, ?_, ?_⟩
        · simpa [Memory.updateSize] using keysNodup_mapDelete (k := k) hnd
        · simpa [Memory.updateSize] using goodEntries_mapDelete (k := k) hg
        · simp [Memory.updateSize, h1, h2]
          omega
        · simp [Memory.updateSize, hes]
          omega

theorem Memory.Clear_WF (m : Memory) (hwf : m.WF) : m.Clear.1.WF := by
  by_cases hcl : m.closed
  · rw [Memory.Clear_closed m hcl]; exact hwf
  · rw [Bool.not_eq_true] at hcl
    rw [Memory.Clear_open m hcl]
    exact ⟨by simp [keysNodup], by simp [goodEntries], by simp,
      by simp [entriesSize]⟩

theorem Memory.Set_WF (m : Memory) (k : Str) (v : Option (List Nat)) (ttl : Int)
    (now : Nat) (hwf : m.WF) (hv : ∀ w, v = some w → w ≠ []) :
    (m.Set k v ttl now).1.WF := by
  by_cases hcl : m.closed
  · rw [Memory.Set_closed m k v ttl now hcl]; exact hwf
  · rw [Bool.not_eq_true] at hcl
    by_cases hk : k = []
    · subst hk
      rw [Memory.Set_emptyKey m v ttl now hcl]
      exact hwf
    · cases v with
      | none =>
          rw [Memory.Set_nilValue m k ttl now hcl hk]
          exact hwf
      | some w =>
          have hw : w ≠ [] := hv w rfl
          have hwpos : 0 < (NewEntry k w ttl now).size := by
            simpa [NewEntry] using List.length_pos.mpr hw
          have hmr := Memory.makeRoom_WF m (NewEntry k w ttl now).size hwf
          cases hmrE : m.makeRoom (NewEntry k w ttl now).size with
          | mk m1 err =>
              rw [hmrE] at hmr
              simp only at hmr
              obtain ⟨hwf1, hcfg1, hcl1⟩ := hmr
              cases err with
              | some e =>
                  rw [Memory.Set_roomErr m m1 k w ttl now e hcl hk hmrE]
                  exact hwf1
              | none =>
                  obtain ⟨hnd1, hg1, hcount1, hsize1⟩ := hwf1
                  cases hload : mapLoad m1.data k with
                  | some old =>
                      rw [Memory.Set_over m m1 k w ttl now old hcl hk hmrE hload]
                      have hmem := mem_of_mapLoad_eq_some hload
                      have hpos : 0 < old.size := (hg1 _ hmem).2.2.2
                      have h1 : ¬ (-old.size > 0) := by omega
                      have h2 : -old.size < 0 := by omega
                      have hlen := mapStore_length_of_some
                        (e := NewEntry k w ttl now) hload
                      have hes := entriesSize_mapStore_of_some
                        (e := NewEntry k w ttl now) hload
                      refine ⟨?_, ?_, ?_, ?_⟩
                      · simpa [Memory.updateSize] using
                          keysNodup_mapStore (k := k)
                            (e := NewEntry k w ttl now) hnd1
                      · simpa [Memory.updateSize] using
                          goodEntries_mapStore hg1 hk rfl rfl hwpos
                      · simp [Memory.updateSize, h1, h2, hwpos, hlen]
                        omega
                      · simp [Memory.updateSize, h1, h2, hwpos, hes]
                        omega
                  | none =>
                      rw [Memory.Set_fresh m m1 k w ttl now hcl hk hmrE hload]
                      have hlen := mapStore_length_of_none
                        (e := NewEntry k w ttl now) hload
                      have hes := entriesSize_mapStore_of_none
                        (e := NewEntry k w ttl now) hload
                      refine ⟨?_, ?_, ?_, ?_⟩
                      · simpa [Memory.updateSize] using
                          keysNodup_mapStore (k := k)
                            (e := NewEntry k w ttl now) hnd1
                      · simpa [Memory.updateSize] using
                          goodEntries_mapStore hg1 hk rfl rfl hwpos
                      · simp [Memory.updateSize, hwpos, hlen]
                        omega
                      · simp [Memory.updateSize, hwpos, hes]
                        omega

theorem sweepLoop_WF (ks : List Str) (m : Memory) (hwf : m.WF) :
    (sweepLoop m ks).WF := by
  induction ks generalizing m with
  | nil => exact hwf
  | cons k rest ih =>
      obtain ⟨hnd, hg, hcount, hsize⟩ := hwf
      unfold sweepLoop
      cases hload : mapLoad m.data k with
      | none => exact ih m ⟨hnd, hg, hcount, hsize⟩
      | some entry =>
          have hmem := mem_of_mapLoad_eq_some hload
          have hpos : 0 < entry.size := (hg _ hmem).2.2.2
          have hlen := mapDelete_length_of_some hload
          have hes := entriesSize_mapDelete_of_some hload
          have h1 : ¬ (-entry.size > 0) := by omega
          have h2 : -entry.size < 0 := by omega
          refine ih _ ⟨?_, ?_, ?_, ?_⟩
          · simpa [Memory.updateSize, Memory.recordEviction] using
              keysNodup_mapDelete (k := k) hnd
          · simpa [Memory.updateSize, Memory.recordEviction] using
              goodEntries_mapDelete (k := k) hg
          · simp [Memory.updateSize, Memory.recordEviction, h1, h2]
            omega
          · simp [Memory.updateSize, Memory.recordEviction, hes]
            omega

theorem Memory.cleanupExpired_WF (m : Memory) (now : Nat) (hwf : m.WF) :
    (m.cleanupExpired now).WF :=
  sweepLoop_WF _ m hwf

/-! ### Lemmas about pattern matching and `Keys` -/

theorem strStartsWith_nil (s : Str) : strStartsWith s [] = true := by
  cases s <;> rfl

theorem strEndsWith_concat (l : Str) (c : Char) :
    strEndsWith (l ++ [c]) [c] = true := by
  simp [strEndsWith, List.reverse_append, strStartsWith, strStartsWith_nil]

theorem Memory.Keys_open (m : Memory) (pat : Str) (now : Nat)
    (h : m.closed = false) :
    m.Keys pat now = .ok (keysLoop m.data pat now) := by
  simp [Memory.Keys, h]

theorem keysLoop_mem (l : List (Str × Entry)) (pat : Str) (now : Nat)
    (k : Str) :
    k ∈ keysLoop l pat now ↔
      ∃ e, (k, e) ∈ l ∧ matchPattern k pat = true ∧
        e.isExpired now = false := by
  induction l with
  | nil => simp [keysLoop]
  | cons p rest ih =>
      obtain ⟨k₀, e₀⟩ := p
      by_cases hc : matchPattern k₀ pat = true ∧ e₀.isExpired now = false
      · simp only [keysLoop, if_pos hc]
        constructor
        · intro h
          rcases List.mem_cons.mp h with h1 | h1
          · subst h1
            exact ⟨e₀, List.mem_cons_self _ _, hc.1, hc.2⟩
          · obtain ⟨e, he, hm, hx⟩ := ih.mp h1
            exact ⟨e, List.mem_cons_of_mem _ he, hm, hx⟩
        · rintro ⟨e, he, hm, hx⟩
          rcases List.mem_cons.mp he with h1 | h1
          · have hk : k = k₀ := congrArg Prod.fst h1
            subst hk
            exact List.mem_cons_self _ _
          · exact List.mem_cons_of_mem _ (ih.mpr ⟨e, h1, hm, hx⟩)
      · simp only [keysLoop, if_neg hc]
        rw [ih]
        constructor
        · rintro ⟨e, he, hm, hx⟩
          exact ⟨e, List.mem_cons_of_mem _ he, hm, hx⟩
        · rintro ⟨e, he, hm, hx⟩
          rcases List.mem_cons.mp he with h1 | h1
          · exfalso
            have hk : k = k₀ := congrArg Prod.fst h1
            have he' : e = e₀ := congrArg Prod.snd h1
            subst hk
            subst he'
            exact hc ⟨hm, hx⟩
          · exact ⟨e, h1, hm, hx⟩

theorem matchPattern_star (k : Str) : matchPattern k (['*']) = true := by
  simp [matchPattern]

theorem matchPattern_concat_star (k pre : Str) :
    matchPattern k (pre ++ ['*']) = strStartsWith k pre := by
  by_cases hp : pre = []
  · subst hp
    simp [matchPattern, strStartsWith_nil]
  · have hne : pre ++ ['*'] ≠ ['*'] := by
      intro h
      have := congrArg List.length h
      simp at this
      exact hp this
    simp [matchPattern, hne, strEndsWith_concat, List.dropLast_concat]

theorem matchPattern_star_cons (k suf : Str)
    (h : strEndsWith ('*' :: suf) (['*']) = false) :
    matchPattern k ('*' :: suf) = strEndsWith k suf := by
  have hne : ('*' :: suf) ≠ ['*'] := by
    intro hcon
    have hsuf : suf = [] := by
      have := congrArg List.length hcon
      simpa using this
    rw [hsuf] at h
    simp [strEndsWith, strStartsWith] at h
  simp [matchPattern, hne, h, strStartsWith, strStartsWith_nil]

theorem matchPattern_literal (k pat : Str)
    (h1 : strStartsWith pat (['*']) = false)
    (h2 : strEndsWith pat (['*']) = false) :
    matchPattern k pat = decide (k = pat) := by
  have hne : pat ≠ ['*'] := by
    intro hcon
    subst hcon
    simp [strStartsWith, strStartsWith_nil] at h1
  simp [matchPattern, hne, h1, h2]

/-! ### Lemmas about the sync-engine counters -/

theorem SyncEngine.handleError_counts (s : SyncEngine) :
    s.handleError.stats.kindSum = s.stats.kindSum ∧
    s.handleError.stats.eventsProcessed = s.stats.eventsProcessed := by
  simp [SyncEngine.handleError, SyncStats.kindSum]

theorem SyncEngine.processEventData_counts (s : SyncEngine) (etype : Str)
    (d : EventData) (now : Nat) (hk : knownKind etype) :
    (s.processEventData etype d now).1.stats.kindSum = s.stats.kindSum + 1 ∧
    (s.processEventData etype d now).1.stats.eventsProcessed =
      s.stats.eventsProcessed := by
  unfold SyncEngine.processEventData
  rcases hk with h | h | h
  · subst h
    simp [SyncStats.kindSum]
    ring
  · subst h
    have hne : eventTypeUpdate ≠ eventTypeAdd := by decide
    simp [hne, SyncStats.kindSum]
    ring
  · subst h
    have hne1 : eventTypeDelete ≠ eventTypeAdd := by decide
    have hne2 : eventTypeDelete ≠ eventTypeUpdate := by decide
    simp [hne1, hne2, SyncStats.kindSum]
    ring

theorem processDataLoop_counts (ds : List EventData) (s : SyncEngine)
    (etype : Str) (now : Nat) (hk : knownKind etype) :
    (processDataLoop s etype ds now).stats.kindSum =
      s.stats.kindSum + (ds.length : Int) ∧
    (processDataLoop s etype ds now).stats.eventsProcessed =
      s.stats.eventsProcessed := by
  induction ds generalizing s with
  | nil => simp [processDataLoop]
  | cons d rest ih =>
      unfold processDataLoop
      cases hpe : s.processEventData etype d now with
      | mk s1 err =>
          have hc := SyncEngine.processEventData_counts s etype d now hk
          rw [hpe] at hc
          simp only at hc
          cases err with
          | none =>
              simp only [hpe]
              have hrec := ih s1
              constructor
              · rw [hrec.1, hc.1]
                simp only [List.length_cons]
                push_cast
                ring
              · rw [hrec.2, hc.2]
          | some e =>
              simp only [hpe]
              have hhe := SyncEngine.handleError_counts s1
              have hrec := ih s1.handleError
              constructor
              · rw [hrec.1, hhe.1, hc.1]
                simp only [List.length_cons]
                push_cast
                ring
              · rw [hrec.2, hhe.2, hc.2]

theorem SyncEngine.processEvent_counts (s : SyncEngine) (ev : Event)
    (now : Nat) (hk : knownKind ev.etype) :
    (s.processEvent ev now).stats.kindSum =
      s.stats.kindSum + (ev.data.length : Int) ∧
    (s.processEvent ev now).stats.eventsProcessed =
      s.stats.eventsProcessed + 1 := by
  unfold SyncEngine.processEvent
  have h := processDataLoop_counts ev.data
    { s with stats :=
        { s.stats with eventsProcessed := s.stats.eventsProcessed + 1 } }
    ev.etype now hk
  constructor
  · rw [h.1]
    simp [SyncStats.kindSum]
  · rw [h.2]

/-! ### Lemmas about persistence -/

theorem Entry.isExpired_congr (e e' : Entry) (h : e.expiresAt = e'.expiresAt)
    (t : Nat) : e.isExpired t = e'.isExpired t := by
  simp [Entry.isExpired, h]

theorem Entry.isExpired_mono (e : Entry) (t1 t2 : Nat) (hle : t1 ≤ t2)
    (h : e.isExpired t2 = false) : e.isExpired t1 = false := by
  cases he : e.expiresAt with
  | none => simp [Entry.isExpired, he]
  | some t =>
      simp [Entry.isExpired, he] at h ⊢
      omega

theorem keysLoop_sublist (l : List (Str × Entry)) (pat : Str) (now : Nat) :
    List.Sublist (keysLoop l pat now) (l.map Prod.fst) := by
  induction l with
  | nil => simp [keysLoop]
  | cons p rest ih =>
      obtain ⟨k₀, e₀⟩ := p
      by_cases hc : matchPattern k₀ pat = true ∧ e₀.isExpired now = false
      · simp only [keysLoop, if_pos hc, List.map_cons]
        exact List.Sublist.cons₂ _ ih
      · simp only [keysLoop, if_neg hc, List.map_cons]
        exact List.Sublist.cons _ ih

/-- On an open, unbounded backend, `Set` of a non-nil value under a
non-empty key always succeeds and just stores the fresh entry. -/
theorem Memory.Set_unbounded_state (m : Memory) (k : Str) (w : List Nat)
    (ttl : Int) (now : Nat)
    (hopen : m.closed = false) (hk : k ≠ [])
    (hme : m.config.maxEntries = 0) (hmm0 : m.config.maxMemory = 0) :
    (m.Set k (some w) ttl now).1.data =
      mapStore m.data k (NewEntry k w ttl now) ∧
    (m.Set k (some w) ttl now).1.closed = false ∧
    (m.Set k (some w) ttl now).1.config = m.config := by
  have hmr := Memory.makeRoom_unbounded m (NewEntry k w ttl now).size hme hmm0
  cases hload : mapLoad m.data k with
  | some old =>
      rw [Memory.Set_over m m k w ttl now old hopen hk hmr hload]
      exact ⟨by simp [Memory.updateSize], by simp [Memory.updateSize, hopen],
        by simp [Memory.updateSize]⟩
  | none =>
      rw [Memory.Set_fresh m m k w ttl now hopen hk hmr hload]
      exact ⟨by simp [Memory.updateSize], by simp [Memory.updateSize, hopen],
        by simp [Memory.updateSize]⟩

theorem fileSave_open (m : Memory) (t1 : Nat) (hopen : m.closed = false) :
    (fileSave m t1).2 =
      Except.ok (saveLoop m (keysLoop m.data (['*']) t1) t1).2 := by
  unfold fileSave
  simp only [Memory.Keys_open m (['*']) t1 hopen]

/-- The snapshot collected by `saveLoop`: its keys are exactly the keys
requested, in order, and every snapshot entry carries its original stored
value and expiry instant (only the hit counter and `updatedAt` differ). -/
theorem saveLoop_spec (ks : List Str) (m : Memory) (t1 : Nat)
    (hopen : m.closed = false) (hnd : ks.Nodup)
    (hks : ∀ k ∈ ks, k ≠ [] ∧ ∃ e, mapLoad m.data k = some e ∧
      e.isExpired t1 = false ∧ e.key = k) :
    (saveLoop m ks t1).2.map Entry.key = ks ∧
    (∀ e', e' ∈ (saveLoop m ks t1).2 →
      ∃ e, mapLoad m.data e'.key = some e ∧ e'.value = e.value ∧
        e'.expiresAt = e.expiresAt) := by
  induction ks generalizing m with
  | nil => simp [saveLoop]
  | cons k rest ih =>
      obtain ⟨hk, e, hload, hexp, hkey⟩ := hks k (List.mem_cons_self _ _)
      have hget := Memory.Get_hit m k t1 e hopen hk hload hexp
      have hknotin : k ∉ rest := (List.nodup_cons.mp hnd).1
      unfold saveLoop
      simp only [hget]
      have hm1 :
          ∀ k', k' ≠ k →
            mapLoad (({ m with
              data := mapStore m.data k
                { e with hits := e.hits + 1, updatedAt := t1 } }).recordHit).data k' =
              mapLoad m.data k' := by
        intro k' hne
        simp only [Memory.recordHit]
        exact mapLoad_mapStore_ne m.data k k' _ (fun h => hne h.symm)
      have hrec := ih (({ m with
          data := mapStore m.data k
            { e with hits := e.hits + 1, updatedAt := t1 } }).recordHit)
        (by simp [Memory.recordHit, hopen])
        (List.nodup_cons.mp hnd).2
        (by
          intro k' hk'
          have hne : k' ≠ k := fun h => hknotin (h ▸ hk')
          obtain ⟨h1, e1, h2, h3, h4⟩ := hks k' (List.mem_cons_of_mem _ hk')
          exact ⟨h1, e1, (hm1 k' hne).symm ▸ h2, h3, h4⟩)
      constructor
      · simp only [List.map_cons]
        rw [hrec.1, hkey]
      · intro e' hmem
        rcases List.mem_cons.mp hmem with rfl | hmem'
        · exact ⟨e, by simpa only [hkey] using hload, rfl, rfl⟩
        · obtain ⟨e1, h2, h3, h4⟩ := hrec.2 e' hmem'
          by_cases hne : e'.key = k
          · have hx : mapLoad (({ m with
                data := mapStore m.data k
                  { e with hits := e.hits + 1, updatedAt := t1 } }).recordHit).data e'.key =
                some { e with hits := e.hits + 1, updatedAt := t1 } := by
              rw [hne]
              simp only [Memory.recordHit]
              exact mapLoad_mapStore_self m.data k _
            have he1 : { e with hits := e.hits + 1, updatedAt := t1 } = e1 :=
              Option.some.inj (hx.symm.trans h2)
            refine ⟨e, ?_, ?_, ?_⟩
            · rw [hne]; exact hload
            · rw [h3, ← he1]
            · rw [h4, ← he1]
          · rw [hm1 e'.key hne] at h2
            exact ⟨e1, h2, h3, h4⟩


theorem loadStep_expired (m : Memory) (e : Entry) (now : Nat)
    (h : e.isExpired now = true) : loadStep m e now = m := by
  simp [loadStep, h]

theorem loadStep_none (m : Memory) (e : Entry) (now : Nat)
    (hx : e.isExpired now = false) (hea : e.expiresAt = none) :
    loadStep m e now = (m.Set e.key (some e.value) 0 now).1 := by
  simp [loadStep, hx, hea]

theorem loadStep_neg (m : Memory) (e : Entry) (now t : Nat)
    (hx : e.isExpired now = false) (hea : e.expiresAt = some t)
    (htt : (t : Int) - (now : Int) < 0) : loadStep m e now = m := by
  simp [loadStep, hx, hea, htt]

theorem loadStep_some (m : Memory) (e : Entry) (now t : Nat)
    (hx : e.isExpired now = false) (hea : e.expiresAt = some t)
    (htt : ¬ ((t : Int) - (now : Int) < 0)) :
    loadStep m e now =
      (m.Set e.key (some e.value) ((t : Int) - (now : Int)) now).1 := by
  simp [loadStep, hx, hea, htt]

/-- On an open unbounded backend, `loadStep` preserves the closed flag
and the configuration, and leaves every key other than the processed
entry's own key untouched. -/
theorem loadStep_effects (m : Memory) (e : Entry) (now : Nat)
    (hopen : m.closed = false)
    (hme : m.config.maxEntries = 0) (hmm0 : m.config.maxMemory = 0) :
    (loadStep m e now).closed = false ∧
    (loadStep m e now).config = m.config ∧
    (∀ k, k ≠ e.key → mapLoad (loadStep m e now).data k = mapLoad m.data k) := by
  cases hx : e.isExpired now with
  | true => rw [loadStep_expired m e now hx]; exact ⟨hopen, rfl, fun _ _ => rfl⟩
  | false =>
      by_cases hk0 : e.key = []
      · cases hea : e.expiresAt with
        | none =>
            rw [loadStep_none m e now hx hea, hk0,
              Memory.Set_emptyKey m _ 0 now hopen]
            exact ⟨hopen, rfl, fun _ _ => rfl⟩
        | some t =>
            by_cases htt : (t : Int) - (now : Int) < 0
            · rw [loadStep_neg m e now t hx hea htt]
              exact ⟨hopen, rfl, fun _ _ => rfl⟩
            · rw [loadStep_some m e now t hx hea htt, hk0,
                Memory.Set_emptyKey m _ _ now hopen]
              exact ⟨hopen, rfl, fun _ _ => rfl⟩
      · cases hea : e.expiresAt with
        | none =>
            rw [loadStep_none m e now hx hea]
            obtain ⟨hd, hc, hcf⟩ :=
              Memory.Set_unbounded_state m e.key e.value 0 now hopen hk0 hme hmm0
            refine ⟨hc, hcf, ?_⟩
            intro k hkne
            rw [hd]
            exact mapLoad_mapStore_ne m.data e.key k _ (fun h => hkne h.symm)
        | some t =>
            by_cases htt : (t : Int) - (now : Int) < 0
            · rw [loadStep_neg m e now t hx hea htt]
              exact ⟨hopen, rfl, fun _ _ => rfl⟩
            · rw [loadStep_some m e now t hx hea htt]
              obtain ⟨hd, hc, hcf⟩ :=
                Memory.Set_unbounded_state m e.key e.value _ now hopen hk0 hme hmm0
              refine ⟨hc, hcf, ?_⟩
              intro k hkne
              rw [hd]
              exact mapLoad_mapStore_ne m.data e.key k _ (fun h => hkne h.symm)

/-- `loadLoop` leaves a key untouched when every snapshot entry under
that key is already expired at load time (in particular when no snapshot
entry carries that key at all). -/
theorem loadLoop_other (entries : List Entry) (m0 : Memory) (t2 : Nat)
    (k : Str) (hopen : m0.closed = false)
    (hme : m0.config.maxEntries = 0) (hmm0 : m0.config.maxMemory = 0)
    (hall : ∀ e ∈ entries, e.key = k → e.isExpired t2 = true) :
    mapLoad (loadLoop m0 entries t2).data k = mapLoad m0.data k := by
  induction entries generalizing m0 with
  | nil => rfl
  | cons e0 rest ih =>
      have htail : ∀ e ∈ rest, e.key = k → e.isExpired t2 = true :=
        fun e he => hall e (List.mem_cons_of_mem _ he)
      obtain ⟨hc, hcf, hother⟩ := loadStep_effects m0 e0 t2 hopen hme hmm0
      have hstep : loadLoop m0 (e0 :: rest) t2 =
          loadLoop (loadStep m0 e0 t2) rest t2 := rfl
      rw [hstep,
        ih (loadStep m0 e0 t2) hc (by rw [hcf]; exact hme)
          (by rw [hcf]; exact hmm0) htail]
      by_cases hke : e0.key = k
      · rw [loadStep_expired m0 e0 t2 (hall e0 (List.mem_cons_self _ _) hke)]
      · exact hother k (fun h => hke h.symm)

/-- A non-expired snapshot entry with a unique, non-empty key survives
`loadLoop` with its value intact. -/
theorem loadLoop_present (entries : List Entry) (m0 : Memory) (t2 : Nat)
    (e' : Entry) (hopen : m0.closed = false)
    (hme : m0.config.maxEntries = 0) (hmm0 : m0.config.maxMemory = 0)
    (hnd : (entries.map Entry.key).Nodup)
    (hmem : e' ∈ entries) (hk : e'.key ≠ [])
    (hexp : e'.isExpired t2 = false) :
    ∃ e2, mapLoad (loadLoop m0 entries t2).data e'.key = some e2 ∧
      e2.value = e'.value := by
  induction entries generalizing m0 with
  | nil => cases hmem
  | cons e0 rest ih =>
      simp only [List.map_cons, List.nodup_cons] at hnd
      have hstep : loadLoop m0 (e0 :: rest) t2 =
          loadLoop (loadStep m0 e0 t2) rest t2 := rfl
      rw [hstep]
      obtain ⟨hc, hcf, hother⟩ := loadStep_effects m0 e0 t2 hopen hme hmm0
      rcases List.mem_cons.mp hmem with rfl | hmem'
      · -- the processed entry is the one we are tracking
        have hnok : ∀ e ∈ rest, e.key = e'.key → e.isExpired t2 = true := by
          intro e he hkeq
          exact absurd (hkeq ▸ List.mem_map_of_mem Entry.key he) hnd.1
        rw [loadLoop_other rest (loadStep m0 e' t2) t2 e'.key hc
          (by rw [hcf]; exact hme) (by rw [hcf]; exact hmm0) hnok]
        cases hea : e'.expiresAt with
        | none =>
            rw [loadStep_none m0 e' t2 hexp hea]
            obtain ⟨hd, _, _⟩ :=
              Memory.Set_unbounded_state m0 e'.key e'.value 0 t2 hopen hk hme hmm0
            rw [hd, mapLoad_mapStore_self]
            exact ⟨_, rfl, rfl⟩
        | some t =>
            have htt : ¬ ((t : Int) - (t2 : Int) < 0) := by
              have : ¬ (t < t2) := by
                simpa [Entry.isExpired, hea] using hexp
              omega
            rw [loadStep_some m0 e' t2 t hexp hea htt]
            obtain ⟨hd, _, _⟩ :=
              Memory.Set_unbounded_state m0 e'.key e'.value _ t2 hopen hk hme hmm0
            rw [hd, mapLoad_mapStore_self]
            exact ⟨_, rfl, rfl⟩
      · exact ih (loadStep m0 e0 t2) hc (by rw [hcf]; exact hme)
          (by rw [hcf]; exact hmm0) hnd.2 hmem'

/-! ### The claims -/

/-- C1: when `Get` finds a stored entry whose expiry predicate holds at
call time, it returns the distinct expired error (not not-found), removes
the entry from the map, increments the eviction counter and the miss
counter, and returns no stale value. -/
theorem C1_get_expired (m : Memory) (k : Str) (e : Entry) (now : Nat)
    (hnd : keysNodup m.data) (hopen : m.closed = false) (hk : k ≠ [])
    (hload : mapLoad m.data k = some e) (hexp : e.isExpired now = true) :
    (m.Get k now).2 = .error .expired ∧
    CacheErr.expired ≠ CacheErr.notFound ∧
    mapLoad (m.Get k now).1.data k = none ∧
    (m.Get k now).1.stats.evictions = m.stats.evictions + 1 ∧
    (m.Get k now).1.stats.misses = m.stats.misses + 1 := by
  rw [Memory.Get_expired m k now e hopen hk hload hexp]
  refine ⟨rfl, by decide, ?_, ?_, ?_⟩
  · simp only [Memory.updateSize, Memory.recordMiss, Memory.recordEviction]
    exact mapLoad_mapDelete_self hnd k
  · simp [Memory.updateSize, Memory.recordMiss, Memory.recordEviction]
  · simp [Memory.updateSize, Memory.recordMiss, Memory.recordEviction]

/-- Witness for C1 at the concrete state `mEx`, read at instant 5. -/
theorem C1_witness :
    (keysNodup mEx.data ∧ mEx.closed = false ∧ (['k'] : Str) ≠ [] ∧
      mapLoad mEx.data (['k']) = some (NewEntry (['k']) [7] 1 0) ∧
      (NewEntry (['k']) [7] 1 0).isExpired 5 = true) ∧
    ((mEx.Get (['k']) 5).2 = .error .expired ∧
      CacheErr.expired ≠ CacheErr.notFound ∧
      mapLoad (mEx.Get (['k']) 5).1.data (['k']) = none ∧
      (mEx.Get (['k']) 5).1.stats.evictions = mEx.stats.evictions + 1 ∧
      (mEx.Get (['k']) 5).1.stats.misses = mEx.stats.misses + 1) :=
  ⟨by decide,
    C1_get_expired mEx (['k']) (NewEntry (['k']) [7] 1 0) 5
      (by decide) (by decide) (by decide) (by decide) (by decide)⟩

/-- Counterexample to C2 as stated: `Set` accepts a zero-length (non-nil)
value, and `updateSize 0` does not bump the entry count, so after this
successful `Set` the map holds one entry while the `entry_count` gauge
reads zero. -/
theorem C2_counterexample :
    ((NewMemory DefaultMemoryConfig).Set (['k']) (some []) 0 0).2 = none ∧
    ((NewMemory DefaultMemoryConfig).Set (['k']) (some []) 0 0).1.data.length = 1 ∧
    ((NewMemory DefaultMemoryConfig).Set (['k']) (some []) 0 0).1.entryCount = 0 := by
  decide

/-- C2 (amended): after every completed operation — `Set` (successful or
failed), `Get`, `Delete`, `Clear`, background sweep, including any
evictions they perform — the gauges equal the true count and byte sum of
the stored entries, provided every stored value is non-empty; a
zero-length value is the one exception, since `updateSize(0)` does not
adjust `entry_count`. -/
theorem C2_gauges (m : Memory) (op : Op) (now : Nat) (hwf : m.WF)
    (hv : ∀ k w ttl, op = Op.set k (some w) ttl → w ≠ []) :
    (m.step op now).WF ∧
    (m.step op now).entryCount = ((m.step op now).data.length : Int) ∧
    (m.step op now).totalSize = entriesSize (m.step op now).data := by
  have h : (m.step op now).WF := by
    cases op with
    | get k => exact Memory.Get_WF m k now hwf
    | set k v ttl =>
        exact Memory.Set_WF m k v ttl now hwf
          (fun w hw => hv k w ttl (by rw [hw]))
    | del k => exact Memory.Delete_WF m k hwf
    | clear => exact Memory.Clear_WF m hwf
    | sweep => exact Memory.cleanupExpired_WF m now hwf
  exact ⟨h, h.2.2.1, h.2.2.2⟩

/-- Witness for C2 on a fresh cache performing one `Set`. -/
theorem C2_witness :
    ((NewMemory DefaultMemoryConfig).WF) ∧
    (((NewMemory DefaultMemoryConfig).step (Op.set (['a']) (some [1]) 0) 0).WF ∧
      ((NewMemory DefaultMemoryConfig).step (Op.set (['a']) (some [1]) 0) 0).entryCount =
        ((((NewMemory DefaultMemoryConfig).step (Op.set (['a']) (some [1]) 0) 0).data.length : Int)) ∧
      ((NewMemory DefaultMemoryConfig).step (Op.set (['a']) (some [1]) 0) 0).totalSize =
        entriesSize ((NewMemory DefaultMemoryConfig).step (Op.set (['a']) (some [1]) 0) 0).data) :=
  ⟨by decide,
    C2_gauges (NewMemory DefaultMemoryConfig) (Op.set (['a']) (some [1]) 0) 0
      (by decide)
      (by
        intro k w ttl h
        injection h with h1 h2 h3
        injection h2 with h2
        subst h2
        decide)⟩

/-- Counterexample to C3 as stated: the entry under `"k"` has one
accumulated hit, a successful overwrite `Set` follows, and the stored
entry's access count afterwards is 0, not 1 — overwrite resets it. -/
theorem C3_counterexample :
    (mapLoad m3B.data (['k'])).map Entry.hits = some 1 ∧
    (m3B.Set (['k']) (some [8]) 0 2).2 = none ∧
    (mapLoad (m3B.Set (['k']) (some [8]) 0 2).1.data (['k'])).map Entry.hits =
      some 0 := by
  decide

/-- C3 (amended): the access counter increments only on successful `Get`;
`Set` always stores a fresh entry whose access count is 0, so an
overwrite resets the accumulated count rather than preserving it. -/
theorem C3_hits (m : Memory) (k : Str) (now : Nat) (e : Entry)
    (v : List Nat) (ttl : Int)
    (hopen : m.closed = false) (hk : k ≠ []) :
    (mapLoad m.data k = some e → e.isExpired now = false →
      (mapLoad (m.Get k now).1.data k).map Entry.hits = some (e.hits + 1)) ∧
    ((m.Set k (some v) ttl now).2 = none →
      (mapLoad (m.Set k (some v) ttl now).1.data k).map Entry.hits = some 0) := by
  constructor
  · intro hload hexp
    rw [Memory.Get_hit m k now e hopen hk hload hexp]
    simp only [Memory.recordHit]
    rw [mapLoad_mapStore_self]
    rfl
  · intro hsucc
    cases hmrE : m.makeRoom (NewEntry k v ttl now).size with
    | mk m1 err =>
        cases err with
        | some e2 =>
            rw [Memory.Set_roomErr m m1 k v ttl now e2 hopen hk hmrE] at hsucc
            simp at hsucc
        | none =>
            cases hload : mapLoad m1.data k with
            | some old =>
                rw [Memory.Set_over m m1 k v ttl now old hopen hk hmrE hload]
                simp only [Memory.updateSize]
                rw [mapLoad_mapStore_self]
                simp [NewEntry]
            | none =>
                rw [Memory.Set_fresh m m1 k v ttl now hopen hk hmrE hload]
                simp only [Memory.updateSize]
                rw [mapLoad_mapStore_self]
                simp [NewEntry]

/-- Witness for C3 (amended) at the concrete state `m3A`. -/
theorem C3_witness :
    (m3A.closed = false ∧ (['k'] : Str) ≠ []) ∧
    ((mapLoad m3A.data (['k']) = some (NewEntry (['k']) [7] 0 0) →
        (NewEntry (['k']) [7] 0 0).isExpired 1 = false →
        (mapLoad (m3A.Get (['k']) 1).1.data (['k'])).map Entry.hits =
          some ((NewEntry (['k']) [7] 0 0).hits + 1)) ∧
      ((m3A.Set (['k']) (some [8]) 0 2).2 = none →
        (mapLoad (m3A.Set (['k']) (some [8]) 0 2).1.data (['k'])).map Entry.hits =
          some 0)) :=
  ⟨by decide,
    C3_hits m3A (['k']) 1 (NewEntry (['k']) [7] 0 0) [8] 0
      (by decide) (by decide)⟩

/-- Counterexample to C4 as stated: `m4A` holds exactly
`max_entries = 1` entries including key `"a"`; overwriting `"a"`
nevertheless evicts an entry (the eviction counter increments), because
`makeRoom` runs before the overwrite is detected. -/
theorem C4_counterexample :
    m4A.config.maxEntries = 1 ∧
    m4A.entryCount = 1 ∧
    (mapLoad m4A.data (['a'])).isSome = true ∧
    (m4A.Set (['a']) (some [2]) 0 1).2 = none ∧
    (m4A.Set (['a']) (some [2]) 0 1).1.stats.evictions =
      m4A.stats.evictions + 1 := by
  decide

/-- C4 (amended): with no bound configured, a successful overwrite of an
existing key changes `total_size_bytes` by exactly the size delta, leaves
`entry_count` unchanged and evicts nothing; when a bound is configured,
`makeRoom` runs before the overwrite is detected, so overwriting at
`max_entries` does evict an entry. -/
theorem C4_overwrite_frame (m : Memory) (k : Str) (v : List Nat)
    (ttl : Int) (now : Nat) (old : Entry)
    (hopen : m.closed = false) (hk : k ≠ [])
    (hme : m.config.maxEntries = 0) (hmm : m.config.maxMemory = 0)
    (hload : mapLoad m.data k = some old)
    (hpos : 0 < old.size) (hv : v ≠ []) :
    (m.Set k (some v) ttl now).2 = none ∧
    (m.Set k (some v) ttl now).1.totalSize =
      m.totalSize - old.size + (v.length : Int) ∧
    (m.Set k (some v) ttl now).1.entryCount = m.entryCount ∧
    (m.Set k (some v) ttl now).1.stats.evictions = m.stats.evictions := by
  have hmr := Memory.makeRoom_unbounded m (NewEntry k v ttl now).size hme hmm
  rw [Memory.Set_over m m k v ttl now old hopen hk hmr hload]
  have hpos2 : 0 < (NewEntry k v ttl now).size := by
    simpa [NewEntry] using List.length_pos.mpr hv
  have h1 : ¬ (-old.size > 0) := by omega
  have h2 : -old.size < 0 := by omega
  refine ⟨rfl, ?_, ?_, ?_⟩
  · simp [Memory.updateSize, h1, h2, hpos2, NewEntry]
    ring
  · simp [Memory.updateSize, h1, h2, hpos2]
  · simp [Memory.updateSize, h1, h2, hpos2]

/-- Witness for C4 (amended) at a concrete unbounded cache. -/
theorem C4_witness :
    (m3A.closed = false ∧ (['k'] : Str) ≠ [] ∧
      m3A.config.maxEntries = 0 ∧ m3A.config.maxMemory = 0 ∧
      mapLoad m3A.data (['k']) = some (NewEntry (['k']) [7] 0 0) ∧
      0 < (NewEntry (['k']) [7] 0 0).size ∧ ([9, 9] : List Nat) ≠ []) ∧
    ((m3A.Set (['k']) (some [9, 9]) 0 3).2 = none ∧
      (m3A.Set (['k']) (some [9, 9]) 0 3).1.totalSize =
        m3A.totalSize - (NewEntry (['k']) [7] 0 0).size + (([9, 9] : List Nat).length : Int) ∧
      (m3A.Set (['k']) (some [9, 9]) 0 3).1.entryCount = m3A.entryCount ∧
      (m3A.Set (['k']) (some [9, 9]) 0 3).1.stats.evictions = m3A.stats.evictions) :=
  ⟨by decide,
    C4_overwrite_frame m3A (['k']) [9, 9] 0 3 (NewEntry (['k']) [7] 0 0)
      (by decide) (by decide) (by decide) (by decide) (by decide) (by decide)
      (by decide)⟩

/-- C6: a `Set` whose value alone exceeds a positive byte bound empties
the map through the eviction loop and then fails with the
capacity-exceeded error (`ErrMemoryLimit`), without inserting the
entry. -/
theorem C6_capacity (m : Memory) (k : Str) (v : List Nat) (ttl : Int)
    (now : Nat) (hwf : m.WF) (hopen : m.closed = false) (hk : k ≠ [])
    (hmm : 0 < m.config.maxMemory)
    (hbig : m.config.maxMemory < ((v.length : Int))) :
    (m.Set k (some v) ttl now).2 = some CacheErr.memoryLimit ∧
    (m.Set k (some v) ttl now).1.data = [] ∧
    mapLoad (m.Set k (some v) ttl now).1.data k = none := by
  have hover : m.config.maxMemory < (NewEntry k v ttl now).size := hbig
  have h := Memory.makeRoom_over m (NewEntry k v ttl now).size hwf hover hmm
  cases hmrE : m.makeRoom (NewEntry k v ttl now).size with
  | mk m1 err =>
      rw [hmrE] at h
      simp only at h
      obtain ⟨h1, h2⟩ := h
      subst h1
      rw [Memory.Set_roomErr m m1 k v ttl now _ hopen hk hmrE]
      refine ⟨rfl, h2, ?_⟩
      rw [h2]
      rfl

/-- Witness for C6 at the concrete 2-byte-bound state `m6A`. -/
theorem C6_witness :
    (m6A.WF ∧ m6A.closed = false ∧ (['b'] : Str) ≠ [] ∧
      0 < m6A.config.maxMemory ∧
      m6A.config.maxMemory < ((([5, 5, 5] : List Nat).length : Int))) ∧
    ((m6A.Set (['b']) (some [5, 5, 5]) 0 1).2 = some CacheErr.memoryLimit ∧
      (m6A.Set (['b']) (some [5, 5, 5]) 0 1).1.data = [] ∧
      mapLoad (m6A.Set (['b']) (some [5, 5, 5]) 0 1).1.data (['b']) = none) :=
  ⟨by decide,
    C6_capacity m6A (['b']) [5, 5, 5] 0 1 (by decide) (by decide) (by decide)
      (by decide) (by decide)⟩

/-- C9: a negative TTL is accepted and behaves exactly like `ttl = 0`:
`NewEntry` leaves the expiry timestamp unset, the entry never satisfies
the expiry predicate at any time, `Set` succeeds or fails identically to
the `ttl = 0` call, and on success the stored entry never expires. -/
theorem C9_negative_ttl (m : Memory) (k : Str) (v : List Nat) (ttl : Int)
    (now t : Nat) (hneg : ttl < 0) :
    (NewEntry k v ttl now).expiresAt = none ∧
    (NewEntry k v ttl now).isExpired t = false ∧
    (m.Set k (some v) ttl now).2 = (m.Set k (some v) 0 now).2 ∧
    ((m.Set k (some v) ttl now).2 = none →
      ∃ e, mapLoad (m.Set k (some v) ttl now).1.data k = some e ∧
        e.expiresAt = none ∧ ∀ u, e.isExpired u = false) := by
  have hnot : ¬ ttl > 0 := by omega
  have hexp : (NewEntry k v ttl now).expiresAt = none := by
    simp [NewEntry, hnot]
  refine ⟨hexp, by simp [Entry.isExpired, hexp], ?_, ?_⟩
  · by_cases hcl : m.closed
    · rw [Memory.Set_closed m k (some v) ttl now hcl,
        Memory.Set_closed m k (some v) 0 now hcl]
    · rw [Bool.not_eq_true] at hcl
      by_cases hk : k = []
      · subst hk
        rw [Memory.Set_emptyKey m (some v) ttl now hcl,
          Memory.Set_emptyKey m (some v) 0 now hcl]
      · cases hmrE : m.makeRoom (NewEntry k v ttl now).size with
        | mk m1 err =>
            cases err with
            | some e2 =>
                rw [Memory.Set_roomErr m m1 k v ttl now e2 hcl hk hmrE,
                  Memory.Set_roomErr m m1 k v 0 now e2 hcl hk hmrE]
            | none =>
                cases hload : mapLoad m1.data k with
                | some old =>
                    rw [Memory.Set_over m m1 k v ttl now old hcl hk hmrE hload,
                      Memory.Set_over m m1 k v 0 now old hcl hk hmrE hload]
                | none =>
                    rw [Memory.Set_fresh m m1 k v ttl now hcl hk hmrE hload,
                      Memory.Set_fresh m m1 k v 0 now hcl hk hmrE hload]
  · intro hsucc
    by_cases hcl : m.closed
    · rw [Memory.Set_closed m k (some v) ttl now hcl] at hsucc
      simp at hsucc
    · rw [Bool.not_eq_true] at hcl
      by_cases hk : k = []
      · subst hk
        rw [Memory.Set_emptyKey m (some v) ttl now hcl] at hsucc
        simp at hsucc
      · cases hmrE : m.makeRoom (NewEntry k v ttl now).size with
        | mk m1 err =>
            cases err with
            | some e2 =>
                rw [Memory.Set_roomErr m m1 k v ttl now e2 hcl hk hmrE] at hsucc
                simp at hsucc
            | none =>
                refine ⟨NewEntry k v ttl now, ?_, hexp,
                  by simp [Entry.isExpired, hexp]⟩
                cases hload : mapLoad m1.data k with
                | some old =>
                    rw [Memory.Set_over m m1 k v ttl now old hcl hk hmrE hload]
                    simp only [Memory.updateSize]
                    exact mapLoad_mapStore_self m1.data k _
                | none =>
                    rw [Memory.Set_fresh m m1 k v ttl now hcl hk hmrE hload]
                    simp only [Memory.updateSize]
                    exact mapLoad_mapStore_self m1.data k _

/-- Witness for C9 on a fresh cache with `ttl = -3`. -/
theorem C9_witness :
    ((-3 : Int) < 0) ∧
    ((NewEntry (['a']) [1] (-3) 0).expiresAt = none ∧
      (NewEntry (['a']) [1] (-3) 0).isExpired 9 = false ∧
      ((NewMemory DefaultMemoryConfig).Set (['a']) (some [1]) (-3) 0).2 =
        ((NewMemory DefaultMemoryConfig).Set (['a']) (some [1]) 0 0).2 ∧
      (((NewMemory DefaultMemoryConfig).Set (['a']) (some [1]) (-3) 0).2 = none →
        ∃ e, mapLoad ((NewMemory DefaultMemoryConfig).Set (['a']) (some [1]) (-3) 0).1.data (['a']) = some e ∧
          e.expiresAt = none ∧ ∀ u, e.isExpired u = false)) :=
  ⟨by decide,
    C9_negative_ttl (NewMemory DefaultMemoryConfig) (['a']) [1] (-3) 0 9
      (by decide)⟩

/-- C10: on an open cache, `Get` with the empty key fails with the
invalid-key error (distinct from not-found) and returns the state
entirely unchanged — in particular no hit, miss, or any other counter
moves. -/
theorem C10_get_emptyKey (m : Memory) (now : Nat)
    (hopen : m.closed = false) :
    m.Get [] now = (m, .error .invalidKey) ∧
    CacheErr.invalidKey ≠ CacheErr.notFound :=
  ⟨Memory.Get_emptyKey m now hopen, by decide⟩

/-- Witness for C10 at the concrete state `m3A`. -/
theorem C10_witness :
    (m3A.closed = false) ∧
    (m3A.Get [] 7 = (m3A, .error .invalidKey) ∧
      CacheErr.invalidKey ≠ CacheErr.notFound) :=
  ⟨by decide, C10_get_emptyKey m3A 7 (by decide)⟩

/-- C5: on an open cache, `keys(p)` returns exactly the non-expired stored
keys matching `p` under the glob grammar, read as ordered cases: `"*"`
matches everything; a pattern ending in `*` matches by its prefix; a
pattern starting (but not ending) with `*` matches by its suffix; any
other pattern matches only itself; no expired key is returned. -/
theorem C5_keys (m : Memory) (pat : Str) (now : Nat) (k pre suf : Str)
    (hnd : keysNodup m.data) (hopen : m.closed = false) :
    (∃ ks, m.Keys pat now = Except.ok ks ∧
      (k ∈ ks ↔ ∃ e, mapLoad m.data k = some e ∧
        matchPattern k pat = true ∧ e.isExpired now = false)) ∧
    matchPattern k (['*']) = true ∧
    matchPattern k (pre ++ ['*']) = strStartsWith k pre ∧
    (strEndsWith ('*' :: suf) (['*']) = false →
      matchPattern k ('*' :: suf) = strEndsWith k suf) ∧
    (strStartsWith pat (['*']) = false → strEndsWith pat (['*']) = false →
      matchPattern k pat = decide (k = pat)) := by
  refine ⟨⟨keysLoop m.data pat now, Memory.Keys_open m pat now hopen, ?_⟩,
    matchPattern_star k, matchPattern_concat_star k pre,
    matchPattern_star_cons k suf, matchPattern_literal k pat⟩
  rw [keysLoop_mem]
  constructor
  · rintro ⟨e, he, hm, hx⟩
    exact ⟨e, mapLoad_eq_some_of_mem hnd he, hm, hx⟩
  · rintro ⟨e, he, hm, hx⟩
    exact ⟨e, mem_of_mapLoad_eq_some he, hm, hx⟩

/-- Witness for C5 at the concrete state `m3A` with a literal pattern. -/
theorem C5_witness :
    (keysNodup m3A.data ∧ m3A.closed = false) ∧
    ((∃ ks, m3A.Keys (['k']) 0 = Except.ok ks ∧
      ((['k'] : Str) ∈ ks ↔ ∃ e, mapLoad m3A.data (['k']) = some e ∧
        matchPattern (['k']) (['k']) = true ∧ e.isExpired 0 = false)) ∧
    matchPattern (['k']) (['*']) = true ∧
    matchPattern (['k']) (['a'] ++ ['*']) = strStartsWith (['k']) (['a']) ∧
    (strEndsWith ('*' :: ['b']) (['*']) = false →
      matchPattern (['k']) ('*' :: ['b']) = strEndsWith (['k']) (['b'])) ∧
    (strStartsWith (['k']) (['*']) = false → strEndsWith (['k']) (['*']) = false →
      matchPattern (['k']) (['k']) = decide ((['k'] : Str) = ['k']))) :=
  ⟨by decide,
    C5_keys m3A (['k']) 0 (['k']) (['a']) (['b']) (by decide) (by decide)⟩

/-- Counterexample to C8 as stated: one `"add"` event carrying two change
records bumps `EventsProcessed` once but `AddEvents` twice, so the
per-kind counters sum to 2 while `EventsProcessed` is 1. -/
theorem C8_counterexample :
    (se0.processEvent evAdd2 0).stats.kindSum = 2 ∧
    (se0.processEvent evAdd2 0).stats.eventsProcessed = 1 := by
  decide

/-- C8 (amended): each per-kind counter counts change records of its
kind, while `EventsProcessed` counts events; the per-kind counters sum
exactly to `EventsProcessed` after any sequence of events in which every
event carries exactly one change record of a known kind (unknown kinds
and multi-record events break the equality). -/
theorem C8_kind_sum (s0 : SyncEngine) (evs : List Event) (now : Nat)
    (hbal : s0.stats.kindSum = s0.stats.eventsProcessed)
    (hone : ∀ ev ∈ evs, ev.data.length = 1 ∧ knownKind ev.etype) :
    (s0.processAll evs now).stats.kindSum =
      (s0.processAll evs now).stats.eventsProcessed := by
  induction evs generalizing s0 with
  | nil => simpa [SyncEngine.processAll] using hbal
  | cons ev rest ih =>
      have h1 := hone ev (List.mem_cons_self _ _)
      have hc := SyncEngine.processEvent_counts s0 ev now h1.2
      have hstep : (s0.processEvent ev now).stats.kindSum =
          (s0.processEvent ev now).stats.eventsProcessed := by
        rw [hc.1, hc.2, hbal, h1.1]
        push_cast
        ring
      have hfold : s0.processAll (ev :: rest) now =
          (s0.processEvent ev now).processAll rest now := rfl
      rw [hfold]
      exact ih _ hstep (fun e he => hone e (List.mem_cons_of_mem _ he))

/-- Witness for C8 (amended): a fresh engine processing one
single-record add event. -/
theorem C8_witness :
    (se0.stats.kindSum = se0.stats.eventsProcessed ∧
      (∀ ev ∈ [evAdd1], ev.data.length = 1 ∧ knownKind ev.etype)) ∧
    (se0.processAll [evAdd1] 0).stats.kindSum =
      (se0.processAll [evAdd1] 0).stats.eventsProcessed :=
  ⟨⟨by decide, by decide⟩,
    C8_kind_sum se0 [evAdd1] 0 (by decide) (by decide)⟩

/-- C7: saving a populated cache and loading the snapshot into a fresh
default instance at a later time yields a cache in which every key whose
entry is non-expired at load time is present with its original value,
and every key whose entry's TTL elapsed by load time is absent (as is
every key that was never stored). -/
theorem C7_roundtrip (m : Memory) (t1 t2 : Nat) (k : Str)
    (hwf : m.WF) (hopen : m.closed = false) (hle : t1 ≤ t2) :
    ∃ es, (fileSave m t1).2 = Except.ok es ∧
      (∀ e, mapLoad m.data k = some e → e.isExpired t2 = false →
        ∃ e2, mapLoad (fileLoad (NewMemory DefaultMemoryConfig) es t2).data k =
            some e2 ∧ e2.value = e.value) ∧
      (∀ e, mapLoad m.data k = some e → e.isExpired t2 = true →
        mapLoad (fileLoad (NewMemory DefaultMemoryConfig) es t2).data k = none) ∧
      (mapLoad m.data k = none →
        mapLoad (fileLoad (NewMemory DefaultMemoryConfig) es t2).data k = none) := by
  obtain ⟨hnd, hg, hcnt, hsz⟩ := hwf
  have hksnd : (keysLoop m.data (['*']) t1).Nodup :=
    List.Nodup.sublist (keysLoop_sublist m.data (['*']) t1) hnd
  have hksmem : ∀ k' ∈ keysLoop m.data (['*']) t1, k' ≠ [] ∧
      ∃ e, mapLoad m.data k' = some e ∧ e.isExpired t1 = false ∧ e.key = k' := by
    intro k' hk'
    obtain ⟨e, hmem, _, hx⟩ := (keysLoop_mem m.data (['*']) t1 k').mp hk'
    obtain ⟨hne, hkey, _, _⟩ := hg _ hmem
    exact ⟨hne, e, mapLoad_eq_some_of_mem hnd hmem, hx, hkey⟩
  obtain ⟨hkeys, hpt⟩ :=
    saveLoop_spec (keysLoop m.data (['*']) t1) m t1 hopen hksnd hksmem
  refine ⟨(saveLoop m (keysLoop m.data (['*']) t1) t1).2,
    fileSave_open m t1 hopen, ?_, ?_, ?_⟩
  · intro e hload hexp2
    have hexp1 := Entry.isExpired_mono e t1 t2 hle hexp2
    have hkin : k ∈ keysLoop m.data (['*']) t1 :=
      (keysLoop_mem m.data (['*']) t1 k).mpr
        ⟨e, mem_of_mapLoad_eq_some hload, matchPattern_star k, hexp1⟩
    have hkin' :
        k ∈ (saveLoop m (keysLoop m.data (['*']) t1) t1).2.map Entry.key := by
      rw [hkeys]; exact hkin
    obtain ⟨e', hmem', hkey'⟩ := List.mem_map.mp hkin'
    obtain ⟨e0, hl0, hv0, hx0⟩ := hpt e' hmem'
    have he0 : e0 = e := by
      rw [hkey', hload] at hl0
      exact (Option.some.inj hl0).symm
    have hxe : e'.isExpired t2 = false := by
      rw [Entry.isExpired_congr e' e (by rw [hx0, he0]) t2]
      exact hexp2
    have hndes :
        ((saveLoop m (keysLoop m.data (['*']) t1) t1).2.map Entry.key).Nodup := by
      rw [hkeys]; exact hksnd
    have hk' : e'.key ≠ [] := by
      rw [hkey']
      exact (hksmem k hkin).1
    obtain ⟨e2, hl2, hv2⟩ := loadLoop_present _ (NewMemory DefaultMemoryConfig)
      t2 e' rfl rfl rfl hndes hmem' hk' hxe
    refine ⟨e2, ?_, ?_⟩
    · rw [← hkey']
      exact hl2
    · rw [hv2, hv0, he0]
  · intro e hload hexp2
    have hall : ∀ e1 ∈ (saveLoop m (keysLoop m.data (['*']) t1) t1).2,
        e1.key = k → e1.isExpired t2 = true := by
      intro e1 hmem1 hk1
      obtain ⟨e0, hl0, hv0, hx0⟩ := hpt e1 hmem1
      rw [hk1, hload] at hl0
      have he0 : e0 = e := (Option.some.inj hl0).symm
      rw [Entry.isExpired_congr e1 e (by rw [hx0, he0]) t2]
      exact hexp2
    exact (loadLoop_other _ (NewMemory DefaultMemoryConfig) t2 k rfl rfl rfl
      hall).trans rfl
  · intro hload
    have hall : ∀ e1 ∈ (saveLoop m (keysLoop m.data (['*']) t1) t1).2,
        e1.key = k → e1.isExpired t2 = true := by
      intro e1 hmem1 hk1
      obtain ⟨e0, hl0, hv0, hx0⟩ := hpt e1 hmem1
      rw [hk1, hload] at hl0
      cases hl0
    exact (loadLoop_other _ (NewMemory DefaultMemoryConfig) t2 k rfl rfl rfl
      hall).trans rfl

/-- Witness for C7 at the concrete state `mEx`, saved at instant 0 and
loaded at instant 5 (by which time the stored entry has expired). -/
theorem C7_witness :
    (mEx.WF ∧ mEx.closed = false ∧ 0 ≤ 5) ∧
    (∃ es, (fileSave mEx 0).2 = Except.ok es ∧
      (∀ e, mapLoad mEx.data (['k']) = some e → e.isExpired 5 = false →
        ∃ e2, mapLoad (fileLoad (NewMemory DefaultMemoryConfig) es 5).data (['k']) =
            some e2 ∧ e2.value = e.value) ∧
      (∀ e, mapLoad mEx.data (['k']) = some e → e.isExpired 5 = true →
        mapLoad (fileLoad (NewMemory DefaultMemoryConfig) es 5).data (['k']) = none) ∧
      (mapLoad mEx.data (['k']) = none →
        mapLoad (fileLoad (NewMemory DefaultMemoryConfig) es 5).data (['k']) = none)) :=
  ⟨⟨by decide, by decide, by decide⟩,
    C7_roundtrip mEx 0 5 (['k']) (by decide) (by decide) (by decide)⟩

end HueCache
